import Mathlib

/-!
# fastlru: an O(1) LRU cache over a singly linked chain with a predecessor index

Shallow embedding of `lru.go`.  Go pointers `*Elem` are addresses into an explicit
heap (a list of cells, address = position); `nil` is `none`.  Every function that
dereferences a pointer returns `Option`: `none` stands for the Go run-time failure
(nil-pointer dereference) or, for the loop of `GetAllValue`, for a walk that never
ends.  The `interface{}` payload is `Option V` for an arbitrary type `V` (`none` is the
nil interface value).  The one operation `lru.go` applies to payloads is the comparison
`v != val` in `Set`; it belongs to the Go language, and `Set` takes its result as the
parameter `ne` (`none` when the comparison panics), so that what is proved of `Set` holds
whatever the payloads are.  The unused `ctx` argument is dropped.
Go `int` is `Int`: the argument of `NewLru` ranges over all integers, and the two counters
stay between 0 and 1000 (`Inv.cap`, `Inv.capHi`), far from the 64-bit bounds.
-/

namespace fastlru

/-- Go pointer `*Elem`: `none` is nil, `some a` is the address of heap cell `a`. -/
abbrev Ptr := Option Nat

def MaxElem : Int := 1000

def MinElem : Int := 10

def DefaultElem : Int := 100

/-- The error values of the package; a nil error is `none : Option Err`. -/
inductive Err where
  | EmptyErr
  | NotFoundErr
  | UnknowErr
deriving DecidableEq

/-- Go `type Elem struct { key string; val interface{}; next *Elem }`. -/
structure Elem (V : Type) where
  key : String
  val : Option V
  next : Ptr
deriving DecidableEq

/-- Go `type lruCache struct`, together with the heap its pointers live in. -/
structure lruCache (V : Type) where
  heap : List (Elem V)
  firstElem : Ptr
  maxCount : Int
  currentCount : Int
  keyMap : List (String × Ptr)
  header : Ptr
  tail : Ptr
deriving DecidableEq

section Model

variable {V : Type}

/-! ### The Go map `map[string]*Elem` as a duplicate-free association list -/

/-- Two-valued map read `p, ok := m[k]`: `none` when `ok` is false. -/
def mapGet : List (String × Ptr) → String → Option Ptr
  | [], _ => none
  | (k', p) :: m, k => if k' = k then some p else mapGet m k

/-- Go `delete(m, k)`. -/
def mapDelete (m : List (String × Ptr)) (k : String) : List (String × Ptr) :=
  m.filter (fun e => decide (e.1 ≠ k))

/-- Go `m[k] = p`. -/
def mapSet (m : List (String × Ptr)) (k : String) (p : Ptr) : List (String × Ptr) :=
  (k, p) :: mapDelete m k

/-- One-valued map read `m[k]`: the zero value nil for a missing key. -/
def mapGetD (m : List (String × Ptr)) (k : String) : Ptr :=
  match mapGet m k with
  | some p => p
  | none => none

/-! ### Heap access -/

/-- Dereference `*p`; `none` is the nil-pointer failure. -/
def load (h : List (Elem V)) : Ptr → Option (Elem V)
  | none => none
  | some a => h[a]?

/-- Assignment `p.next = n`. -/
def setNext (h : List (Elem V)) (p : Ptr) (n : Ptr) : Option (List (Elem V)) :=
  match p with
  | none => none
  | some a =>
    match h[a]? with
    | none => none
    | some e => some (h.set a { e with next := n })

/-- Assignment `p.val = v`. -/
def setVal (h : List (Elem V)) (p : Ptr) (v : Option V) : Option (List (Elem V)) :=
  match p with
  | none => none
  | some a =>
    match h[a]? with
    | none => none
    | some e => some (h.set a { e with val := v })

/-- Allocation `&Elem{...}`: the new cell gets the next free address. -/
def alloc (h : List (Elem V)) (e : Elem V) : List (Elem V) × Ptr :=
  (h ++ [e], some h.length)

/-! ### The operations of `lru.go` -/

/-- Go `NewLru`. -/
def NewLru (maxCount : Int) : lruCache V :=
  let count :=
    if maxCount < MinElem then MinElem
    else if maxCount > MaxElem then MaxElem
    else maxCount
  let (heap, emptyElem) := alloc [] { key := "", val := none, next := none }
  { heap := heap
    firstElem := emptyElem
    maxCount := count
    currentCount := 0
    keyMap := []
    header := emptyElem
    tail := emptyElem }

/-- Go `NewDefaultLru`. -/
def NewDefaultLru : lruCache V :=
  NewLru DefaultElem

/-- Go `(*lruCache).Empty`: `l.header.next == nil`. -/
def lruCache.Empty (l : lruCache V) : Option Bool := do
  let hd ← load l.heap l.header
  pure (hd.next == none)

/-- Go `(*lruCache).moveElem2Header`. -/
def lruCache.moveElem2Header (l : lruCache V) (elem : Ptr) : Option (lruCache V) :=
  if elem = l.firstElem then some l
  else do
    let e ← load l.heap elem
    let newFirstElem := e.next
    let nf ← load l.heap newFirstElem
    let l1 ←
      if nf.next = none then do
        let h ← setNext l.heap elem none
        pure { l with heap := h, tail := elem }
      else do
        let nn ← load l.heap nf.next
        let km := mapSet l.keyMap nn.key elem
        let h ← setNext l.heap elem nf.next
        pure { l with heap := h, keyMap := km }
    let hd ← load l1.heap l1.header
    let oldFirstElem := hd.next
    let h2 ← setNext l1.heap newFirstElem oldFirstElem
    let ofe ← load h2 oldFirstElem
    let km2 := mapSet l1.keyMap ofe.key newFirstElem
    let h3 ← setNext h2 l1.header newFirstElem
    let nf3 ← load h3 newFirstElem
    let km3 := mapSet km2 nf3.key l1.header
    pure { l1 with heap := h3, keyMap := km3 }

/-- Go `(*lruCache).Get`; the result is `((value, error), cache afterwards)`. -/
def lruCache.Get (l : lruCache V) (key : String) :
    Option ((Option V × Option Err) × lruCache V) := do
  if (← l.Empty) then
    pure ((none, some Err.EmptyErr), l)
  else
    match mapGet l.keyMap key with
    | none => pure ((none, some Err.NotFoundErr), l)
    | some elem => do
      let e ← load l.heap elem
      let n ← load l.heap e.next
      let val := n.val
      let l1 ← l.moveElem2Header elem
      pure ((val, none), l1)

/-- Go `(*lruCache).insertFirstElem`. -/
def lruCache.insertFirstElem (l : lruCache V) (key : String) (val : Option V) :
    Option (lruCache V) := do
  let (h1, newElem) := alloc l.heap { key := key, val := val, next := none }
  let h2 ← setNext h1 l.header newElem
  pure { l with
    heap := h2
    tail := newElem
    currentCount := l.currentCount + 1
    keyMap := mapSet l.keyMap key l.header }

/-- Go `(*lruCache).deleteTail`. -/
def lruCache.deleteTail (l : lruCache V) : Option (lruCache V) := do
  let t ← load l.heap l.tail
  let deleteKey := t.key
  let tailPre := mapGetD l.keyMap deleteKey
  let h ← setNext l.heap tailPre none
  pure { l with heap := h, tail := tailPre, keyMap := mapDelete l.keyMap deleteKey }

/-- Go `(*lruCache).insertElem`. -/
def lruCache.insertElem (l : lruCache V) (key : String) (val : Option V) :
    Option (lruCache V) := do
  let l1 ←
    if l.maxCount = l.currentCount then do
      let l' ← l.deleteTail
      pure { l' with currentCount := l'.currentCount - 1 }
    else pure l
  let (h1, newElem) := alloc l1.heap { key := key, val := val, next := none }
  let hd ← load h1 l1.header
  let oldFirstElem := hd.next
  let h2 ← setNext h1 newElem oldFirstElem
  let h3 ← setNext h2 l1.header newElem
  let km1 := mapSet l1.keyMap key l1.header
  let ofe ← load h3 oldFirstElem
  let km2 := mapSet km1 ofe.key newElem
  pure { l1 with heap := h3, keyMap := km2, currentCount := l1.currentCount + 1 }

/-- Go `(*lruCache).Set`; the result is `(error, cache afterwards)`.  The test `v != val`
compares two `interface{}` values, an operation of the Go language: `ne v val` is its
result, `some true` for unequal, `some false` for equal, and `none` when the comparison
panics at run time (the operands have the same dynamic type and comparing them reaches
values of a type that is not comparable, such as a slice, a map or a function).  A panic
ends the call: `Set` is then `none`, as for a nil-pointer dereference. -/
def lruCache.Set (ne : Option V → Option V → Option Bool) (l : lruCache V) (key : String)
    (val : Option V) : Option (Option Err × lruCache V) := do
  let ((v, err), l1) ← l.Get key
  match err with
  | none => do
    if (← ne v val) then do
      let hd ← load l1.heap l1.header
      let h ← setVal l1.heap hd.next val
      pure (none, { l1 with heap := h })
    else pure (none, l1)
  | some Err.EmptyErr => do
    let l2 ← l1.insertFirstElem key val
    pure (none, l2)
  | some Err.NotFoundErr => do
    let l2 ← l1.insertElem key val
    pure (none, l2)
  | some Err.UnknowErr => pure (some Err.UnknowErr, l1)

/-- Go `v != val` on `interface{}` values whose payloads are of a type all of whose values
can be compared and are equal only to themselves (`int`, `string`, `bool`, ...): the
comparison never panics and is the test for being different. -/
def valNe [DecidableEq V] (v val : Option V) : Option Bool :=
  some (decide (v ≠ val))

/-- The loop of `GetAllValue`: `for p != nil { result = append(result, p.val); p = p.next }`.
Each iteration uses one unit of fuel; running out of fuel is `none`. -/
def walkVals (h : List (Elem V)) : Nat → Ptr → List (Option V) → Option (List (Option V))
  | _, none, result => some result
  | 0, some _, _ => none
  | fuel + 1, some a, result =>
    match h[a]? with
    | none => none
    | some e => walkVals h fuel e.next (result ++ [e.val])

/-- Go `(*lruCache).GetAllValue`.  The fuel is the number of heap cells: a walk that
visits more cells than the heap has must revisit one, and then the Go loop never ends. -/
def lruCache.GetAllValue (l : lruCache V) : Option (List (Option V)) := do
  let hd ← load l.heap l.header
  walkVals l.heap l.heap.length hd.next []

/-- Go `(*lruCache).Clear`. -/
def lruCache.Clear (l : lruCache V) : lruCache V :=
  { l with
    currentCount := 0
    keyMap := []
    header := l.firstElem
    tail := l.firstElem }

/-! ### Sequences of public calls -/

/-- A call of one of the four public methods. -/
inductive Op (V : Type) where
  | Get (key : String)
  | Set (key : String) (val : Option V)
  | Clear
  | GetAllValue

/-- Is the call a `Get` or a `Set`? -/
def Op.isGetSet : Op V → Bool
  | Op.Get _ => true
  | Op.Set _ _ => true
  | _ => false

/-- Is the call a `Clear`? -/
def Op.isClear : Op V → Bool
  | Op.Clear => true
  | _ => false

/-- The cache after one public call (`none` if the call does not return); `ne` is the
payload comparison of `Set`. -/
def step (ne : Option V → Option V → Option Bool) (l : lruCache V) :
    Op V → Option (lruCache V)
  | Op.Get k => (l.Get k).map Prod.snd
  | Op.Set k v => (l.Set ne k v).map Prod.snd
  | Op.Clear => some l.Clear
  | Op.GetAllValue => l.GetAllValue.map (fun _ => l)

/-- The cache after a sequence of public calls. -/
def run (ne : Option V → Option V → Option Bool) (l : lruCache V) :
    List (Op V) → Option (lruCache V)
  | [] => some l
  | o :: os => (step ne l o).bind (fun l1 => run ne l1 os)

/-- The chain walk of `GetAllValue`, collecting `(key, val)` of every entry instead of
the value alone: the stored entries, most recently used first. -/
def walkEntries (h : List (Elem V)) : Nat → Ptr → Option (List (String × Option V))
  | _, none => some []
  | 0, some _ => none
  | fuel + 1, some a =>
    match h[a]? with
    | none => none
    | some e => (walkEntries h fuel e.next).map (fun r => (e.key, e.val) :: r)

/-- The stored `(key, value)` pairs in chain order from `header.next`. -/
def lruCache.entries (l : lruCache V) : Option (List (String × Option V)) := do
  let hd ← load l.heap l.header
  walkEntries l.heap l.heap.length hd.next

end Model

/-! ## The representation invariant

A reachable cache (no `Clear`) is described by the list of its chain cells, most
recently used first: the address, key and value of every entry. -/

section Representation

variable {V : Type}

/-- One chain entry: where it lives and what it holds. -/
structure Cell (V : Type) where
  addr : Nat
  key : String
  val : Option V

/-- The pointer to the first cell of a chain segment, or `e` when the segment is empty. -/
def hdOr (cs : List (Cell V)) (e : Ptr) : Ptr :=
  match cs with
  | [] => e
  | c :: _ => some c.addr

/-- The cells `cs` are laid out in heap `h` and linked in order, the last one to `e`. -/
def Seg (h : List (Elem V)) : List (Cell V) → Ptr → Prop
  | [], _ => True
  | c :: cs, e => h[c.addr]? = some { key := c.key, val := c.val, next := hdOr cs e } ∧ Seg h cs e

/-- The index entry a key must have: the address of the cell before its own. -/
def predOf : Nat → List (Cell V) → String → Option Ptr
  | _, [], _ => none
  | prev, c :: cs, k => if c.key = k then some (some prev) else predOf c.addr cs k

/-- The address of the last cell, or `prev` for an empty chain. -/
def lastAddr : Nat → List (Cell V) → Nat
  | prev, [] => prev
  | _, c :: cs => lastAddr c.addr cs

/-- The `(key, value)` pair of a cell. -/
def Cell.kv (c : Cell V) : String × Option V := (c.key, c.val)

/-- The representation invariant: cache `l` stores exactly the chain `cs`. -/
structure Inv (l : lruCache V) (cs : List (Cell V)) : Prop where
  first : l.firstElem = some 0
  header : l.header = some 0
  sentinel : l.heap[0]? = some { key := "", val := none, next := hdOr cs none }
  seg : Seg l.heap cs none
  addrs : (0 :: cs.map Cell.addr).Nodup
  keys : (cs.map Cell.key).Nodup
  index : ∀ k, mapGet l.keyMap k = predOf 0 cs k
  indexKeys : (l.keyMap.map Prod.fst).Nodup
  tail : l.tail = some (lastAddr 0 cs)
  count : l.currentCount = (cs.length : Int)
  cap : (cs.length : Int) ≤ l.maxCount
  capLo : 10 ≤ l.maxCount
  capHi : l.maxCount ≤ 1000
  room : cs.length < l.heap.length

/-- The key of the first cell of a segment, or `d` when it is empty. -/
def hdKey (cs : List (Cell V)) (d : String) : String :=
  match cs with
  | [] => d
  | c :: _ => c.key

/-- The index after the moved cell has been unlinked from behind `p`. -/
def unlinkMap (m : List (String × Ptr)) (p : Cell V) (post : List (Cell V)) :
    List (String × Ptr) :=
  match post with
  | [] => m
  | q :: _ => mapSet m q.key (some p.addr)

/-- The index entry of `k` after unlinking the cell behind `p`: the successor of the
unlinked cell now has `p` before it, everything else keeps its entry `d`. -/
def unlinkPred (p : Cell V) (post : List (Cell V)) (k : String) (d : Option Ptr) : Option Ptr :=
  match post with
  | [] => d
  | q :: _ => if k = q.key then some (some p.addr) else d

/-- The second half of `insertElem`: the insertion at the front that follows the
eviction test. -/
def insertFront (l1 : lruCache V) (key : String) (val : Option V) : Option (lruCache V) := do
  let (h1, newElem) := alloc l1.heap { key := key, val := val, next := none }
  let hd ← load h1 l1.header
  let oldFirstElem := hd.next
  let h2 ← setNext h1 newElem oldFirstElem
  let h3 ← setNext h2 l1.header newElem
  let km1 := mapSet l1.keyMap key l1.header
  let ofe ← load h3 oldFirstElem
  let km2 := mapSet km1 ofe.key newElem
  pure { l1 with heap := h3, keyMap := km2, currentCount := l1.currentCount + 1 }

/-- The calls `Set k v` for a list of `(key, value)` pairs, in order. -/
def setOps (kvs : List (String × Option V)) : List (Op V) :=
  kvs.map (fun kv => Op.Set kv.1 kv.2)

/-! ### Example caches -/

/-- The keys "k0" … "k9" with values 0 … 9, in insertion order. -/
def fillK : List (String × Option Nat) :=
  [("k0", some 0), ("k1", some 1), ("k2", some 2), ("k3", some 3), ("k4", some 4),
   ("k5", some 5), ("k6", some 6), ("k7", some 7), ("k8", some 8), ("k9", some 9)]

/-- A cache of capacity 10 filled by `Set` of "k0" … "k9" in order. -/
def fullCache : lruCache Nat :=
  (run valNe (NewLru 10) (setOps fillK)).getD (NewLru 10)

/-- A cache of capacity 10 after `Set("a", 1)` and `Set("b", 2)`. -/
def cacheAB : lruCache Nat :=
  (run valNe (NewLru 10) [Op.Set "a" (some 1), Op.Set "b" (some 2)]).getD (NewLru 10)

/-- The keys "b0" … "b9" with values 100 … 109. -/
def fillB : List (String × Option Nat) :=
  [("b0", some 100), ("b1", some 101), ("b2", some 102), ("b3", some 103), ("b4", some 104),
   ("b5", some 105), ("b6", some 106), ("b7", some 107), ("b8", some 108), ("b9", some 109)]

/-- A batch of ten distinct keys, five of them stored before the `Clear`. -/
def batchAfterClear : List (String × Option Nat) :=
  [("k5", some 105), ("k9", some 109), ("k8", some 108), ("k7", some 107), ("k6", some 106),
   ("x1", some 201), ("x2", some 202), ("x3", some 203), ("x4", some 204), ("x5", some 205)]

/-- The chain walk of `GetAllValue`, collecting the address of every entry. -/
def walkPtrs (h : List (Elem V)) : Nat → Ptr → Option (List Nat)
  | _, none => some []
  | 0, some _ => none
  | fuel + 1, some a =>
    match h[a]? with
    | none => none
    | some e => (walkPtrs h fuel e.next).map (fun r => a :: r)

/-- The addresses of the entries in chain order from `header.next`. -/
def lruCache.chain (l : lruCache V) : Option (List Nat) := do
  let hd ← load l.heap l.header
  walkPtrs l.heap l.heap.length hd.next

/-- The number of keys in the index, Go `len(l.keyMap)`. -/
def lruCache.indexCount (l : lruCache V) : Nat :=
  l.keyMap.length

/-! ### Observations and the reference LRU -/

/-- What a caller sees of one public call. -/
inductive Obs (V : Type) where
  | get (val : Option V) (err : Option Err)
  | set (err : Option Err)
  | clear
  | all (vals : List (Option V))

/-- What a caller sees of a sequence of public calls on cache `l` (`none` if a call does
not return); `ne` is the payload comparison of `Set`. -/
def observe (ne : Option V → Option V → Option Bool) (l : lruCache V) :
    List (Op V) → Option (List (Obs V))
  | [] => some []
  | Op.Get k :: os =>
    match l.Get k with
    | none => none
    | some (r, l1) => (observe ne l1 os).map (fun rest => Obs.get r.1 r.2 :: rest)
  | Op.Set k v :: os =>
    match l.Set ne k v with
    | none => none
    | some (e, l1) => (observe ne l1 os).map (fun rest => Obs.set e :: rest)
  | Op.Clear :: os => (observe ne l.Clear os).map (fun rest => Obs.clear :: rest)
  | Op.GetAllValue :: os =>
    match l.GetAllValue with
    | none => none
    | some vals => (observe ne l os).map (fun rest => Obs.all vals :: rest)

/-- Some of the values a caller may put in `interface{}`: an `int`, a `string`, a
`float64` zero with its sign bit, a slice `[]int`, and a one-element array
`[1]interface{}` holding another such value. -/
inductive Payload where
  | int (n : Int)
  | str (s : String)
  | zero (neg : Bool)
  | ints (xs : List Int)
  | arr (x : Payload)
deriving DecidableEq

/-- Go `!=` on two non-nil `interface{}` values holding a `Payload`: values of different
dynamic types are unequal; two ints and two strings are compared; the two zeros `+0.0` and
`-0.0` are equal; comparing two slices panics (`none`); two arrays are compared element by
element, which panics if the comparison of the elements does. -/
def payloadNe : Payload → Payload → Option Bool
  | Payload.int a, Payload.int b => some (decide (a ≠ b))
  | Payload.str a, Payload.str b => some (decide (a ≠ b))
  | Payload.zero _, Payload.zero _ => some false
  | Payload.ints _, Payload.ints _ => none
  | Payload.arr a, Payload.arr b => payloadNe a b
  | _, _ => some true

/-- Go `v != val` on two `interface{}` values holding a `Payload`; `none` as an argument is
the nil interface value, which equals only itself. -/
def ifaceNe : Option Payload → Option Payload → Option Bool
  | none, none => some false
  | none, some _ => some true
  | some _, none => some true
  | some a, some b => payloadNe a b

/-- A cache of capacity 10 holding the slice `[]int{1}` under "a" and the int 5 under "b". -/
def cacheSlice : lruCache Payload :=
  (run ifaceNe (NewLru 10)
    [Op.Set "b" (some (Payload.int 5)), Op.Set "a" (some (Payload.ints [1]))]).getD (NewLru 10)

/-- A cache of capacity 10 holding the float64 zero `+0.0` under "z". -/
def cacheZero : lruCache Payload :=
  (run ifaceNe (NewLru 10) [Op.Set "z" (some (Payload.zero false))]).getD (NewLru 10)

/-! ### Heap shape in every reachable state -/

/-- The `next` pointer of the cell at address `a` (nil if there is no such cell). -/
def nextOf (h : List (Elem V)) (a : Nat) : Ptr :=
  match h[a]? with
  | some e => e.next
  | none => none

/-- The shape every heap of a cache has: the sentinel exists, `next` pointers point to
existing cells other than the sentinel, and no two cells share a successor. -/
structure Shape (h : List (Elem V)) : Prop where
  sentinel : 0 < h.length
  valid : ∀ a b, nextOf h a = some b → b < h.length ∧ b ≠ 0
  inj : ∀ a a' b, nextOf h a = some b → nextOf h a' = some b → a = a'

/-- What every cache reachable by public calls satisfies, `Clear` included: header and
`firstElem` are the sentinel at address 0 and the heap has the shape `Shape`. -/
structure WF (l : lruCache V) : Prop where
  header : l.header = some 0
  first : l.firstElem = some 0
  shape : Shape l.heap

/-- A cache of capacity 10 after `Set("a", 1)`, `Set("b", 2)`, `Clear()` and `Set("c", 3)`. -/
def cacheCleared : lruCache Nat :=
  (run valNe (NewLru 10)
    [Op.Set "a" (some 1), Op.Set "b" (some 2), Op.Clear, Op.Set "c" (some 3)]).getD (NewLru 10)

variable (ne : Option V → Option V → Option Bool)

/-! ### Lemmas on the map -/

theorem mapGet_mapDelete (m : List (String × Ptr)) (k k' : String) :
    mapGet (mapDelete m k) k' = if k' = k then none else mapGet m k' := by
  induction m with
  | nil => simp [mapDelete, mapGet]
  | cons e m ih =>
    obtain ⟨a, p⟩ := e
    unfold mapDelete at ih ⊢
    by_cases hak : a = k
    · subst hak
      by_cases hk : k' = a
      · subst hk
        simpa [List.filter_cons, mapGet] using ih
      · have hk2 : ¬ a = k' := fun h => hk h.symm
        simpa [List.filter_cons, mapGet, hk, hk2] using ih
    · by_cases hk : k' = k
      · subst hk
        have : ¬ a = k' := hak
        simpa [List.filter_cons, mapGet, hak] using ih
      · by_cases hak2 : a = k'
        · simp [List.filter_cons, mapGet, hak, hk, hak2]
        · simpa [List.filter_cons, mapGet, hak, hk, hak2] using ih

theorem mapGet_mapSet (m : List (String × Ptr)) (k k' : String) (p : Ptr) :
    mapGet (mapSet m k p) k' = if k' = k then some p else mapGet m k' := by
  unfold mapSet
  by_cases hk : k' = k
  · subst hk
    simp [mapGet]
  · have hk2 : ¬ k = k' := fun h => hk h.symm
    simp [mapGet, hk, hk2, mapGet_mapDelete]

theorem mapDelete_keys_nodup (m : List (String × Ptr)) (k : String)
    (h : (m.map Prod.fst).Nodup) : ((mapDelete m k).map Prod.fst).Nodup := by
  unfold mapDelete
  exact List.Nodup.sublist (List.Sublist.map _ (List.filter_sublist m)) h

theorem mapDelete_key_not_mem (m : List (String × Ptr)) (k : String) :
    k ∉ (mapDelete m k).map Prod.fst := by
  unfold mapDelete
  simp [List.mem_map, List.mem_filter]

theorem mapSet_keys_nodup (m : List (String × Ptr)) (k : String) (p : Ptr)
    (h : (m.map Prod.fst).Nodup) : ((mapSet m k p).map Prod.fst).Nodup := by
  unfold mapSet
  rw [List.map_cons, List.nodup_cons]
  exact ⟨mapDelete_key_not_mem m k, mapDelete_keys_nodup m k h⟩

/-! ### Lemmas on heap cells -/

theorem get_set_self {h : List (Elem V)} {a : Nat} {e : Elem V} (x : Elem V)
    (ha : h[a]? = some e) : (h.set a x)[a]? = some x := by
  have hlt : a < h.length := by
    rcases List.getElem?_eq_some.mp ha with ⟨hlt, _⟩
    exact hlt
  simp [List.getElem?_set, hlt]

theorem get_set_other {h : List (Elem V)} {a b : Nat} (x : Elem V) (hne : a ≠ b) :
    (h.set a x)[b]? = h[b]? := by
  simp [List.getElem?_set, hne]

theorem get_alloc_old {h : List (Elem V)} {a : Nat} {e : Elem V} (x : Elem V)
    (ha : h[a]? = some e) : (h ++ [x])[a]? = some e := by
  have hlt : a < h.length := by
    rcases List.getElem?_eq_some.mp ha with ⟨hlt, _⟩
    exact hlt
  rw [List.getElem?_append_left hlt]
  exact ha

theorem get_alloc_new (h : List (Elem V)) (x : Elem V) : (h ++ [x])[h.length]? = some x := by
  simp

theorem set_same {α : Type} (h : List α) (a : Nat) (e : α) (he : h[a]? = some e) :
    h.set a e = h := by
  have hlt : a < h.length := by
    by_contra hge
    rw [List.getElem?_eq_none (Nat.le_of_not_lt hge)] at he
    exact absurd he (by simp)
  apply List.ext_getElem?
  intro i
  by_cases hi : a = i
  · subst hi
    rw [List.getElem?_set_self hlt, he]
  · rw [List.getElem?_set_ne hi]

theorem get_lt {h : List (Elem V)} {a : Nat} {e : Elem V} (ha : h[a]? = some e) :
    a < h.length := by
  rcases List.getElem?_eq_some.mp ha with ⟨hlt, _⟩
  exact hlt

/-! ### Lemmas on chain segments -/

theorem hdOr_append (xs ys : List (Cell V)) (e : Ptr) :
    hdOr (xs ++ ys) e = hdOr xs (hdOr ys e) := by
  cases xs <;> rfl

theorem Seg_append (h : List (Elem V)) (xs ys : List (Cell V)) (e : Ptr) :
    Seg h (xs ++ ys) e ↔ Seg h xs (hdOr ys e) ∧ Seg h ys e := by
  induction xs with
  | nil => simp [Seg]
  | cons c xs ih =>
    simp only [List.cons_append, Seg, List.append_eq, ih, hdOr_append]
    tauto

theorem Seg_set_frame (h : List (Elem V)) (a : Nat) (x : Elem V) (cs : List (Cell V)) (e : Ptr)
    (ha : a ∉ cs.map Cell.addr) : Seg (h.set a x) cs e ↔ Seg h cs e := by
  induction cs with
  | nil => simp [Seg]
  | cons c cs ih =>
    simp only [List.map_cons, List.mem_cons, not_or] at ha
    simp only [Seg, ih ha.2, get_set_other x ha.1]

theorem Seg_alloc (h : List (Elem V)) (x : Elem V) (cs : List (Cell V)) (e : Ptr)
    (hs : Seg h cs e) : Seg (h ++ [x]) cs e := by
  induction cs with
  | nil => simp [Seg]
  | cons c cs ih =>
    exact ⟨get_alloc_old x hs.1, ih hs.2⟩

theorem Seg_addr_lt (h : List (Elem V)) (cs : List (Cell V)) (e : Ptr) (hs : Seg h cs e) :
    ∀ a ∈ cs.map Cell.addr, a < h.length := by
  induction cs with
  | nil => simp
  | cons c cs ih =>
    intro a ha
    simp only [List.map_cons, List.mem_cons] at ha
    rcases ha with rfl | ha
    · exact get_lt hs.1
    · exact ih hs.2 a ha

/-! ### Lemmas on the predecessor function -/

theorem predOf_eq_none_iff (prev : Nat) (cs : List (Cell V)) (k : String) :
    predOf prev cs k = none ↔ k ∉ cs.map Cell.key := by
  induction cs generalizing prev with
  | nil => simp [predOf]
  | cons c cs ih =>
    by_cases hk : c.key = k
    · simp [predOf, hk]
    · have hk2 : ¬ k = c.key := fun h => hk h.symm
      simp [predOf, hk, hk2, ih]

theorem lastAddr_append (prev : Nat) (xs ys : List (Cell V)) :
    lastAddr prev (xs ++ ys) = lastAddr (lastAddr prev xs) ys := by
  induction xs generalizing prev with
  | nil => rfl
  | cons c xs ih => exact ih c.addr

theorem lastAddr_concat (prev : Nat) (xs : List (Cell V)) (c : Cell V) :
    lastAddr prev (xs ++ [c]) = c.addr := by
  rw [lastAddr_append]
  rfl

theorem lastAddr_mem (prev : Nat) (cs : List (Cell V)) :
    lastAddr prev cs = prev ∨ lastAddr prev cs ∈ cs.map Cell.addr := by
  induction cs generalizing prev with
  | nil => exact Or.inl rfl
  | cons c cs ih =>
    rcases ih c.addr with h | h
    · right
      simp [lastAddr, h]
    · right
      simp only [lastAddr, List.map_cons, List.mem_cons]
      exact Or.inr h

theorem predOf_append (prev : Nat) (xs ys : List (Cell V)) (k : String) :
    predOf prev (xs ++ ys) k =
      if k ∈ xs.map Cell.key then predOf prev xs k else predOf (lastAddr prev xs) ys k := by
  induction xs generalizing prev with
  | nil => simp [lastAddr]
  | cons c xs ih =>
    by_cases hk : c.key = k
    · simp [predOf, hk]
    · have hk2 : ¬ k = c.key := fun h => hk h.symm
      simp [predOf, hk, hk2, ih, lastAddr]

theorem predOf_append_of_not_mem (prev : Nat) (xs ys : List (Cell V)) (k : String)
    (hk : k ∉ xs.map Cell.key) :
    predOf prev (xs ++ ys) k = predOf (lastAddr prev xs) ys k := by
  rw [predOf_append, if_neg hk]

theorem predOf_append_of_mem (prev : Nat) (xs ys : List (Cell V)) (k : String)
    (hk : k ∈ xs.map Cell.key) :
    predOf prev (xs ++ ys) k = predOf prev xs k := by
  rw [predOf_append, if_pos hk]

/-- The predecessor argument only matters for the first cell. -/
theorem predOf_change_prev (a b : Nat) (c : Cell V) (cs : List (Cell V)) (k : String)
    (hk : c.key ≠ k) : predOf a (c :: cs) k = predOf b (c :: cs) k := by
  simp [predOf, hk]

/-! ### The chain walks on a well-formed chain -/

theorem walkEntries_Seg (h : List (Elem V)) (cs : List (Cell V)) (fuel : Nat)
    (hs : Seg h cs none) (hf : cs.length ≤ fuel) :
    walkEntries h fuel (hdOr cs none) = some (cs.map Cell.kv) := by
  induction cs generalizing fuel with
  | nil => cases fuel <;> simp [hdOr, walkEntries]
  | cons c cs ih =>
    cases fuel with
    | zero => simp at hf
    | succ fuel =>
      have hf2 : cs.length ≤ fuel := by simpa using hf
      show walkEntries h (fuel + 1) (some c.addr) = _
      simp only [walkEntries, hs.1, ih fuel hs.2 hf2, Option.map_some', List.map_cons, Cell.kv]

theorem walkVals_Seg (h : List (Elem V)) (cs : List (Cell V)) (fuel : Nat)
    (acc : List (Option V)) (hs : Seg h cs none) (hf : cs.length ≤ fuel) :
    walkVals h fuel (hdOr cs none) acc = some (acc ++ cs.map Cell.val) := by
  induction cs generalizing fuel acc with
  | nil => cases fuel <;> simp [hdOr, walkVals]
  | cons c cs ih =>
    cases fuel with
    | zero => simp at hf
    | succ fuel =>
      have hf2 : cs.length ≤ fuel := by simpa using hf
      show walkVals h (fuel + 1) (some c.addr) acc = _
      simp only [walkVals, hs.1, ih fuel _ hs.2 hf2, List.map_cons, List.append_assoc,
        List.singleton_append]

theorem Inv.entries_eq {l : lruCache V} {cs : List (Cell V)} (hi : Inv l cs) :
    l.entries = some (cs.map Cell.kv) := by
  have hw := walkEntries_Seg l.heap cs l.heap.length hi.seg (Nat.le_of_lt hi.room)
  simp [lruCache.entries, hi.header, load, hi.sentinel, hw]

theorem Inv.GetAllValue_eq {l : lruCache V} {cs : List (Cell V)} (hi : Inv l cs) :
    l.GetAllValue = some (cs.map Cell.val) := by
  have hw := walkVals_Seg l.heap cs l.heap.length [] hi.seg (Nat.le_of_lt hi.room)
  simp [lruCache.GetAllValue, hi.header, load, hi.sentinel, hw]

/-- The cells of a cache are determined by the cache. -/
theorem Inv.kv_unique {l : lruCache V} {cs cs' : List (Cell V)} (hi : Inv l cs)
    (hi' : Inv l cs') : cs.map Cell.kv = cs'.map Cell.kv := by
  have h1 := hi.entries_eq
  rw [hi'.entries_eq] at h1
  exact (Option.some.inj h1).symm

/-! ### Construction -/

theorem clamp_bounds (n : Int) :
    (10 : Int) ≤ (NewLru n : lruCache V).maxCount ∧ (NewLru n : lruCache V).maxCount ≤ 1000 := by
  unfold NewLru
  simp only [alloc, MinElem, MaxElem]
  split_ifs <;> omega

theorem Inv_NewLru (n : Int) : Inv (NewLru n : lruCache V) [] := by
  have hb := clamp_bounds (V := V) n
  constructor
  · rfl
  · rfl
  · rfl
  · trivial
  · simp
  · simp
  · intro k
    rfl
  · simp [NewLru, alloc]
  · rfl
  · rfl
  · simp only [List.length_nil, Nat.cast_zero]
    omega
  · exact hb.1
  · exact hb.2
  · simp [NewLru, alloc]

/-! ### Moving an entry to the front -/

theorem nodup_split {α : Type} {xs ys : List α} {a b : α} (h : (xs ++ a :: b :: ys).Nodup) :
    a ≠ b ∧ (a ∉ xs ∧ b ∉ xs) ∧ (a ∉ ys ∧ b ∉ ys) ∧ (∀ x ∈ xs, x ∉ ys) := by
  simp only [List.nodup_cons, List.nodup_append, List.mem_cons, not_or, List.Disjoint] at h
  obtain ⟨-, ⟨⟨h5, h6⟩, h7, -⟩, h8⟩ := h
  refine ⟨h5, ⟨?_, ?_⟩, ⟨h6, h7⟩, ?_⟩
  · intro hx
    exact h8 hx (Or.inl rfl)
  · intro hx
    exact h8 hx (Or.inr (Or.inl rfl))
  · intro x hx hy
    exact h8 hx (Or.inr (Or.inr hy))

theorem addr_facts {pre post : List (Cell V)} {p c : Cell V}
    (h : (0 :: (pre ++ p :: c :: post).map Cell.addr).Nodup) :
    (0 ≠ p.addr ∧ 0 ≠ c.addr ∧ p.addr ≠ c.addr) ∧
    (0 ∉ pre.map Cell.addr ∧ p.addr ∉ pre.map Cell.addr ∧ c.addr ∉ pre.map Cell.addr) ∧
    (0 ∉ post.map Cell.addr ∧ p.addr ∉ post.map Cell.addr ∧ c.addr ∉ post.map Cell.addr) := by
  rw [List.nodup_cons, List.map_append, List.map_cons, List.map_cons] at h
  obtain ⟨h0, hn⟩ := h
  obtain ⟨hpc, ⟨hp1, hc1⟩, ⟨hp2, hc2⟩, -⟩ := nodup_split hn
  simp only [List.mem_append, List.mem_cons, not_or] at h0
  exact ⟨⟨h0.2.1, h0.2.2.1, hpc⟩, ⟨h0.1, hp1, hc1⟩, ⟨h0.2.2.2, hp2, hc2⟩⟩

theorem move_eval {l : lruCache V} {pre post : List (Cell V)} {p c : Cell V}
    (hi : Inv l (pre ++ p :: c :: post)) :
    l.moveElem2Header (some p.addr) = some
      { l with
        heap := ((l.heap.set p.addr { key := p.key, val := p.val, next := hdOr post none }).set
          c.addr { key := c.key, val := c.val, next := hdOr pre (some p.addr) }).set
          0 { key := "", val := none, next := some c.addr }
        tail := (match post with
          | [] => some p.addr
          | _ :: _ => l.tail)
        keyMap := mapSet (mapSet (unlinkMap l.keyMap p post) (hdKey pre p.key) (some c.addr))
          c.key (some 0) } := by
  have hs := hi.sentinel
  obtain ⟨hpre, hp, hc, hpost⟩ : Seg l.heap pre (some p.addr) ∧
      l.heap[p.addr]? = some { key := p.key, val := p.val, next := some c.addr } ∧
      l.heap[c.addr]? = some { key := c.key, val := c.val, next := hdOr post none } ∧
      Seg l.heap post none := by
    have := (Seg_append _ pre (p :: c :: post) none).mp hi.seg
    exact ⟨this.1, this.2.1, this.2.2.1, this.2.2.2⟩
  obtain ⟨⟨h0p, h0c, hpc⟩, ⟨h0pre, hppre, hcpre⟩, ⟨h0post, hppost, hcpost⟩⟩ := addr_facts hi.addrs
  have hpl := get_lt hp
  have hcl := get_lt hc
  have h0l := get_lt hs
  rw [hdOr_append] at hs
  rcases pre with _ | ⟨f, pre⟩ <;> rcases post with _ | ⟨q, post⟩
  · simp only [lruCache.moveElem2Header, hi.first, Option.some.injEq, Ne.symm h0p, ↓reduceIte, load, hp, setNext,
      hi.header, Option.pure_def, Option.bind_eq_bind, Option.some_bind, ne_eq, not_false_eq_true,
      List.getElem?_set_ne, hs, hdOr, hc, hpc, Ne.symm hpc, hpl, List.getElem?_set_self, Ne.symm h0c, h0c,
      List.length_set, hcl, reduceCtorEq, unlinkMap, hdKey]
  · have hq := hpost.1
    simp only [lruCache.moveElem2Header, hi.first, Option.some.injEq, Ne.symm h0p, ↓reduceIte, load, hp, setNext,
      hi.header, Option.pure_def, Option.bind_eq_bind, Option.some_bind, ne_eq, not_false_eq_true,
      List.getElem?_set_ne, hs, hdOr, hc, hpc, Ne.symm hpc, hpl, List.getElem?_set_self, Ne.symm h0c, h0c,
      List.length_set, hcl, reduceCtorEq, unlinkMap, hdKey, hq]
  · have hf := hpre.1
    have hf0 : f.addr ≠ 0 := fun h => h0pre (by simp [h])
    have hfp : f.addr ≠ p.addr := fun h => hppre (by simp [h])
    have hfc : f.addr ≠ c.addr := fun h => hcpre (by simp [h])
    simp only [lruCache.moveElem2Header, hi.first, Option.some.injEq, Ne.symm h0p, ↓reduceIte, load, hp, setNext,
      hi.header, Option.pure_def, Option.bind_eq_bind, Option.some_bind, ne_eq, not_false_eq_true,
      List.getElem?_set_ne, hs, hdOr, hc, hpc, Ne.symm hpc, hpl, List.getElem?_set_self, Ne.symm h0c, h0c,
      List.length_set, hcl, reduceCtorEq, unlinkMap, hdKey, Ne.symm hfc, Ne.symm hfp, hf]
  · have hq := hpost.1
    have hf := hpre.1
    have hf0 : f.addr ≠ 0 := fun h => h0pre (by simp [h])
    have hfp : f.addr ≠ p.addr := fun h => hppre (by simp [h])
    have hfc : f.addr ≠ c.addr := fun h => hcpre (by simp [h])
    simp only [lruCache.moveElem2Header, hi.first, Option.some.injEq, Ne.symm h0p, ↓reduceIte, load, hp, setNext,
      hi.header, Option.pure_def, Option.bind_eq_bind, Option.some_bind, ne_eq, not_false_eq_true,
      List.getElem?_set_ne, hs, hdOr, hc, hpc, Ne.symm hpc, hpl, List.getElem?_set_self, Ne.symm h0c, h0c,
      List.length_set, hcl, reduceCtorEq, unlinkMap, hdKey, Ne.symm hfc, Ne.symm hfp, hf, hq]

theorem predOf_head (a b : Nat) (pre post : List (Cell V)) (p : Cell V) (k : String) :
    predOf a (pre ++ p :: post) k =
      if hdKey pre p.key = k then some (some a) else predOf b (pre ++ p :: post) k := by
  cases pre <;> simp only [List.nil_append, List.cons_append, predOf, hdKey] <;> split_ifs <;> rfl

theorem predOf_unlink (a : Nat) (pre post : List (Cell V)) (p c : Cell V) (k : String)
    (hn : ((pre ++ p :: c :: post).map Cell.key).Nodup) (hk : c.key ≠ k) :
    predOf a (pre ++ p :: post) k = unlinkPred p post k (predOf a (pre ++ p :: c :: post) k) := by
  unfold unlinkPred
  rw [List.map_append, List.map_cons, List.map_cons] at hn
  obtain ⟨hpc, ⟨hp1, hc1⟩, ⟨hp2, hc2⟩, hdis⟩ := nodup_split hn
  by_cases hkpre : k ∈ pre.map Cell.key
  · rw [predOf_append_of_mem _ _ _ _ hkpre, predOf_append_of_mem _ _ _ _ hkpre]
    cases post with
    | nil => rfl
    | cons q post =>
      have : k ≠ q.key := by
        intro h
        exact hdis k hkpre (by simp [h])
      simp [this]
  · rw [predOf_append_of_not_mem _ _ _ _ hkpre, predOf_append_of_not_mem _ _ _ _ hkpre]
    by_cases hkp : p.key = k
    · cases post with
      | nil => simp [predOf, hkp]
      | cons q post =>
        have : k ≠ q.key := by
          intro h
          exact hp2 (by simp [hkp, h])
        simp [predOf, hkp, this]
    · cases post with
      | nil => simp [predOf, hkp, hk]
      | cons q post =>
        by_cases hkq : k = q.key
        · subst hkq
          simp [predOf, hkp, hk]
        · have hkq2 : ¬ q.key = k := fun h => hkq h.symm
          simp [predOf, hkp, hk, hkq, hkq2]

theorem mapGet_unlinkMap (m : List (String × Ptr)) (p : Cell V) (post : List (Cell V))
    (k : String) :
    mapGet (unlinkMap m p post) k = unlinkPred p post k (mapGet m k) := by
  cases post with
  | nil => rfl
  | cons q post => simp [unlinkMap, unlinkPred, mapGet_mapSet]

theorem unlinkMap_keys_nodup (m : List (String × Ptr)) (p : Cell V) (post : List (Cell V))
    (h : (m.map Prod.fst).Nodup) : ((unlinkMap m p post).map Prod.fst).Nodup := by
  cases post with
  | nil => exact h
  | cons q post => exact mapSet_keys_nodup _ _ _ h

theorem move_spec {l : lruCache V} {pre post : List (Cell V)} {p c : Cell V}
    (hi : Inv l (pre ++ p :: c :: post)) :
    ∃ l', l.moveElem2Header (some p.addr) = some l' ∧ Inv l' (c :: (pre ++ p :: post)) ∧
      l'.maxCount = l.maxCount := by
  refine ⟨_, move_eval hi, ?_, rfl⟩
  have hs := hi.sentinel
  obtain ⟨hpre, hp, hc, hpost⟩ : Seg l.heap pre (some p.addr) ∧
      l.heap[p.addr]? = some { key := p.key, val := p.val, next := some c.addr } ∧
      l.heap[c.addr]? = some { key := c.key, val := c.val, next := hdOr post none } ∧
      Seg l.heap post none := by
    have := (Seg_append _ pre (p :: c :: post) none).mp hi.seg
    exact ⟨this.1, this.2.1, this.2.2.1, this.2.2.2⟩
  obtain ⟨⟨h0p, h0c, hpc⟩, ⟨h0pre, hppre, hcpre⟩, ⟨h0post, hppost, hcpost⟩⟩ := addr_facts hi.addrs
  have hpl := get_lt hp
  have hcl := get_lt hc
  have h0l := get_lt hs
  have hperm : (c :: (pre ++ p :: post)).Perm (pre ++ p :: c :: post) := by
    have h1 : pre ++ p :: c :: post = (pre ++ [p]) ++ c :: post := by simp
    have h2 : pre ++ p :: post = (pre ++ [p]) ++ post := by simp
    rw [h1, h2]
    exact List.perm_middle.symm
  constructor
  · exact hi.first
  · exact hi.header
  · simp [hdOr, h0l]
  · refine ⟨?_, ?_⟩
    · simp only [ne_eq, h0c, not_false_eq_true, List.getElem?_set_ne, List.length_set, hcl,
        List.getElem?_set_self, hdOr_append]
      rfl
    · have h0M : 0 ∉ (pre ++ p :: post).map Cell.addr := by
        simp only [List.map_append, List.map_cons, List.mem_append, List.mem_cons, not_or]
        exact ⟨h0pre, h0p, h0post⟩
      have hcM : c.addr ∉ (pre ++ p :: post).map Cell.addr := by
        simp only [List.map_append, List.map_cons, List.mem_append, List.mem_cons, not_or]
        exact ⟨hcpre, Ne.symm hpc, hcpost⟩
      rw [Seg_set_frame _ _ _ _ _ h0M, Seg_set_frame _ _ _ _ _ hcM, Seg_append]
      refine ⟨?_, ?_, ?_⟩
      · rw [Seg_set_frame _ _ _ _ _ hppre]
        exact hpre
      · simp only [hpl, List.getElem?_set_self]
      · rw [Seg_set_frame _ _ _ _ _ hppost]
        exact hpost
  · have := hi.addrs
    rw [List.nodup_cons] at this ⊢
    refine ⟨?_, (List.Perm.nodup_iff (hperm.map Cell.addr)).mpr this.2⟩
    intro h
    exact this.1 ((hperm.map Cell.addr).mem_iff.mp h)
  · exact (List.Perm.nodup_iff (hperm.map Cell.key)).mpr hi.keys
  · intro k
    have hkc : p.key ≠ c.key := by
      have := hi.keys
      rw [List.map_append, List.map_cons, List.map_cons] at this
      exact (nodup_split this).1
    simp only [mapGet_mapSet, mapGet_unlinkMap, hi.index]
    by_cases hk : k = c.key
    · simp [hk, predOf]
    · have hk2 : c.key ≠ k := fun h => hk h.symm
      rw [if_neg hk]
      show _ = predOf 0 (c :: (pre ++ p :: post)) k
      rw [predOf, if_neg hk2, predOf_head c.addr 0]
      by_cases hkh : k = hdKey pre p.key
      · simp [hkh]
      · have hkh2 : ¬ hdKey pre p.key = k := fun h => hkh h.symm
        rw [if_neg hkh, if_neg hkh2, predOf_unlink 0 pre post p c k hi.keys hk2]
  · exact mapSet_keys_nodup _ _ _ (mapSet_keys_nodup _ _ _ (unlinkMap_keys_nodup _ _ _ hi.indexKeys))
  · cases post with
    | nil => simp [lastAddr, lastAddr_append]
    | cons q post =>
      have := hi.tail
      simp only [lastAddr, lastAddr_append] at this ⊢
      exact this
  · have := hi.count
    simp only [List.length_append, List.length_cons] at this ⊢
    rw [this]
    push_cast
    omega
  · have := hi.cap
    simp only [List.length_append, List.length_cons] at this ⊢
    push_cast at this ⊢
    omega
  · exact hi.capLo
  · exact hi.capHi
  · have := hi.room
    simp only [List.length_append, List.length_cons, List.length_set] at this ⊢
    omega

/-! ### `Get` -/

theorem Get_empty {l : lruCache V} (hi : Inv l []) (k : String) :
    l.Get k = some ((none, some Err.EmptyErr), l) := by
  have hs := hi.sentinel
  simp [lruCache.Get, lruCache.Empty, hi.header, load, hs, hdOr]

theorem Get_miss {l : lruCache V} {cs : List (Cell V)} (hi : Inv l cs) (k : String)
    (hne : cs ≠ []) (hk : k ∉ cs.map Cell.key) :
    l.Get k = some ((none, some Err.NotFoundErr), l) := by
  have hs := hi.sentinel
  have hm : mapGet l.keyMap k = none := by
    rw [hi.index k]
    exact (predOf_eq_none_iff 0 cs k).mpr hk
  obtain ⟨c, cs', rfl⟩ := List.exists_cons_of_ne_nil hne
  simp [lruCache.Get, lruCache.Empty, hi.header, load, hs, hdOr, hm]

theorem Get_front {l : lruCache V} {c : Cell V} {post : List (Cell V)}
    (hi : Inv l (c :: post)) :
    l.Get c.key = some ((c.val, none), l) := by
  have hs := hi.sentinel
  have hm : mapGet l.keyMap c.key = some (some 0) := by
    rw [hi.index c.key]
    simp [predOf]
  have hc := hi.seg.1
  simp [lruCache.Get, lruCache.Empty, hi.header, load, hs, hdOr, hm, hc,
    lruCache.moveElem2Header, hi.first]

theorem Get_behind {l : lruCache V} {pre post : List (Cell V)} {p c : Cell V}
    (hi : Inv l (pre ++ p :: c :: post)) :
    ∃ l', l.Get c.key = some ((c.val, none), l') ∧ Inv l' (c :: (pre ++ p :: post)) ∧
      l'.maxCount = l.maxCount := by
  obtain ⟨l', hmove, hinv, hmax⟩ := move_spec hi
  refine ⟨l', ?_, hinv, hmax⟩
  have hs := hi.sentinel
  have hkeys := hi.keys
  rw [List.map_append, List.map_cons, List.map_cons] at hkeys
  obtain ⟨hpc, ⟨hp1, hc1⟩, -, -⟩ := nodup_split hkeys
  have hm : mapGet l.keyMap c.key = some (some p.addr) := by
    rw [hi.index c.key, predOf_append_of_not_mem _ _ _ _ hc1]
    simp [predOf, hpc]
  have hsplit := (Seg_append _ pre (p :: c :: post) none).mp hi.seg
  have hp := hsplit.2.1
  have hc := hsplit.2.2.1
  have hnext : hdOr (pre ++ p :: c :: post) none ≠ none := by
    cases pre <;> simp [hdOr]
  simp only [hdOr] at hp
  simp [lruCache.Get, lruCache.Empty, hi.header, load, hs, hm, hp, hc, hmove, hnext]

/-- A hit: `Get` of a stored key returns its value and moves its cell to the front. -/
theorem Get_hit {l : lruCache V} {pre post : List (Cell V)} {c : Cell V}
    (hi : Inv l (pre ++ c :: post)) :
    ∃ l', l.Get c.key = some ((c.val, none), l') ∧ Inv l' (c :: (pre ++ post)) ∧
      l'.maxCount = l.maxCount := by
  rcases List.eq_nil_or_concat pre with rfl | ⟨pre', p, rfl⟩
  · exact ⟨l, Get_front hi, hi, rfl⟩
  · have hi' : Inv l (pre' ++ p :: c :: post) := by simpa using hi
    obtain ⟨l', hg, hinv, hmax⟩ := Get_behind hi'
    exact ⟨l', hg, by simpa using hinv, hmax⟩

/-! ### `Set` -/

theorem insertFirstElem_eval {l : lruCache V} (hi : Inv l []) (k : String) (v : Option V) :
    l.insertFirstElem k v = some
      { l with
        heap := (l.heap ++ [({ key := k, val := v, next := none } : Elem V)]).set 0
          { key := "", val := none, next := some l.heap.length }
        tail := some l.heap.length
        currentCount := l.currentCount + 1
        keyMap := mapSet l.keyMap k (some 0) } := by
  have hs1 : (l.heap ++ [{ key := k, val := v, next := none }])[0]? =
      some { key := "", val := none, next := hdOr ([] : List (Cell V)) none } :=
    get_alloc_old _ hi.sentinel
  simp only [lruCache.insertFirstElem, alloc, hi.header, setNext, hs1, Option.pure_def,
    Option.bind_eq_bind, Option.some_bind]

theorem insertFirstElem_spec {l : lruCache V} (hi : Inv l []) (k : String) (v : Option V) :
    ∃ l', l.insertFirstElem k v = some l' ∧
      Inv l' [{ addr := l.heap.length, key := k, val := v }] ∧ l'.maxCount = l.maxCount := by
  have hs := hi.sentinel
  have h0l := get_lt hs
  have hne : l.heap.length ≠ 0 := by omega
  refine ⟨_, insertFirstElem_eval hi k v, ?_, rfl⟩
  constructor
  · exact hi.first
  · exact hi.header
  · have h0l1 : 0 < (l.heap ++ [({ key := k, val := v, next := none } : Elem V)]).length := by
      simp
    simp only [List.getElem?_set_self h0l1, hdOr]
  · refine ⟨?_, trivial⟩
    simp only [hdOr, List.getElem?_set_ne (Ne.symm hne), get_alloc_new]
  · simp [hne, Ne.symm hne]
  · simp
  · intro k'
    simp only [mapGet_mapSet, hi.index, predOf]
    by_cases hk : k' = k
    · simp [hk]
    · have hk2 : ¬ k = k' := fun h => hk h.symm
      simp [hk, hk2]
  · exact mapSet_keys_nodup _ _ _ hi.indexKeys
  · rfl
  · have := hi.count
    simp only [List.length_nil, List.length_singleton] at this ⊢
    rw [this]
    rfl
  · have := hi.capLo
    simp only [List.length_singleton]
    push_cast
    omega
  · exact hi.capLo
  · exact hi.capHi
  · simp
    omega

theorem insertElem_of_ne (l : lruCache V) (k : String) (v : Option V)
    (h : l.maxCount ≠ l.currentCount) : l.insertElem k v = insertFront l k v := by
  simp only [lruCache.insertElem, insertFront, h, ↓reduceIte, Option.pure_def,
    Option.bind_eq_bind, Option.some_bind]

theorem insertElem_of_eq (l l' : lruCache V) (k : String) (v : Option V)
    (h : l.maxCount = l.currentCount) (hd : l.deleteTail = some l') :
    l.insertElem k v = insertFront { l' with currentCount := l'.currentCount - 1 } k v := by
  simp only [lruCache.insertElem, insertFront, h, hd, ↓reduceIte, Option.pure_def,
    Option.bind_eq_bind, Option.some_bind]

theorem insertFront_eval {l : lruCache V} {f : Cell V} {rest : List (Cell V)}
    (hi : Inv l (f :: rest)) (k : String) (v : Option V) :
    insertFront l k v = some
      { l with
        heap := ((l.heap ++ [({ key := k, val := v, next := none } : Elem V)]).set l.heap.length
          { key := k, val := v, next := some f.addr }).set 0
          { key := "", val := none, next := some l.heap.length }
        keyMap := mapSet (mapSet l.keyMap k (some 0)) f.key (some l.heap.length)
        currentCount := l.currentCount + 1 } := by
  have hs := hi.sentinel
  have hf := hi.seg.1
  have h0l := get_lt hs
  have hfl := get_lt hf
  have hn0 : l.heap.length ≠ 0 := by omega
  have hnf : l.heap.length ≠ f.addr := by omega
  have hf0 : 0 ≠ f.addr := by
    have := hi.addrs
    simp only [List.map_cons, List.nodup_cons, List.mem_cons, not_or] at this
    exact this.1.1
  have hs1 : (l.heap ++ [({ key := k, val := v, next := none } : Elem V)])[0]? = _ :=
    get_alloc_old _ hs
  have hf1 : (l.heap ++ [({ key := k, val := v, next := none } : Elem V)])[f.addr]? = _ :=
    get_alloc_old _ hf
  have hlen : l.heap.length < (l.heap ++ [({ key := k, val := v, next := none } : Elem V)]).length := by
    simp
  simp only [insertFront, alloc, hi.header, load, setNext, hs1, hf1, get_alloc_new, hdOr,
    Option.pure_def, Option.bind_eq_bind, Option.some_bind, ne_eq, hn0, hnf, hf0, Ne.symm hn0,
    not_false_eq_true, List.getElem?_set_ne]

theorem insertFront_spec {l : lruCache V} {f : Cell V} {rest : List (Cell V)}
    (hi : Inv l (f :: rest)) (k : String) (v : Option V)
    (hk : k ∉ (f :: rest).map Cell.key) (hroom : ((f :: rest).length : Int) < l.maxCount) :
    ∃ l', insertFront l k v = some l' ∧
      Inv l' ({ addr := l.heap.length, key := k, val := v } :: f :: rest) ∧
      l'.maxCount = l.maxCount := by
  refine ⟨_, insertFront_eval hi k v, ?_, rfl⟩
  have hs := hi.sentinel
  have hf := hi.seg.1
  have h0l := get_lt hs
  have hfl := get_lt hf
  have hn0 : l.heap.length ≠ 0 := by omega
  have haddrs := hi.addrs
  have hlt := Seg_addr_lt _ _ _ hi.seg
  have hnmem : l.heap.length ∉ (f :: rest).map Cell.addr := by
    intro h
    exact Nat.lt_irrefl _ (hlt _ h)
  have h0mem : 0 ∉ (f :: rest).map Cell.addr := (List.nodup_cons.mp haddrs).1
  have hlen1 : l.heap.length <
      (l.heap ++ [({ key := k, val := v, next := none } : Elem V)]).length := by
    simp
  have hlen0 : 0 < ((l.heap ++ [({ key := k, val := v, next := none } : Elem V)]).set
      l.heap.length { key := k, val := v, next := some f.addr }).length := by
    simp
  constructor
  · exact hi.first
  · exact hi.header
  · simp only [List.getElem?_set_self hlen0, hdOr]
  · refine ⟨?_, ?_⟩
    · simp only [hdOr, List.getElem?_set_ne (Ne.symm hn0), List.getElem?_set_self hlen1]
    · rw [Seg_set_frame _ _ _ _ _ h0mem, Seg_set_frame _ _ _ _ _ hnmem]
      exact Seg_alloc _ _ _ _ hi.seg
  · rw [List.map_cons, List.nodup_cons, List.nodup_cons]
    refine ⟨?_, hnmem, (List.nodup_cons.mp haddrs).2⟩
    simp only [List.mem_cons, not_or]
    exact ⟨Ne.symm hn0, h0mem⟩
  · rw [List.map_cons, List.nodup_cons]
    exact ⟨hk, hi.keys⟩
  · intro k'
    have hkf : k ≠ f.key := by
      intro h
      exact hk (by simp [h])
    simp only [mapGet_mapSet, hi.index, predOf]
    by_cases h1 : k' = f.key
    · subst h1
      simp [hkf]
    · have h1b : ¬ f.key = k' := fun h => h1 h.symm
      by_cases h2 : k' = k
      · subst h2
        simp [h1]
      · have h2b : ¬ k = k' := fun h => h2 h.symm
        simp [h1, h1b, h2, h2b]
  · exact mapSet_keys_nodup _ _ _ (mapSet_keys_nodup _ _ _ hi.indexKeys)
  · exact hi.tail
  · have := hi.count
    simp only [List.length_cons] at this ⊢
    rw [this]
    push_cast
    ring
  · simp only [List.length_cons] at hroom ⊢
    push_cast at hroom ⊢
    omega
  · exact hi.capLo
  · exact hi.capHi
  · have := hi.room
    simp only [List.length_cons, List.length_set, List.length_append, List.length_singleton] at this ⊢
    omega

theorem deleteTail_eval {l : lruCache V} {init : List (Cell V)} {p t : Cell V}
    (hi : Inv l (init ++ [p, t])) :
    l.deleteTail = some
      { l with
        heap := l.heap.set p.addr { key := p.key, val := p.val, next := none }
        tail := some p.addr
        keyMap := mapDelete l.keyMap t.key } := by
  have hkeys := hi.keys
  rw [List.map_append, List.map_cons, List.map_cons] at hkeys
  obtain ⟨hpt, ⟨-, ht1⟩, -, -⟩ := nodup_split hkeys
  have hsplit := (Seg_append _ init [p, t] none).mp hi.seg
  have hp : l.heap[p.addr]? = some { key := p.key, val := p.val, next := some t.addr } :=
    hsplit.2.1
  have ht : l.heap[t.addr]? = some { key := t.key, val := t.val, next := none } :=
    hsplit.2.2.1
  have htail : l.tail = some t.addr := by
    rw [hi.tail, lastAddr_append]
    rfl
  have hm : mapGet l.keyMap t.key = some (some p.addr) := by
    rw [hi.index t.key, predOf_append_of_not_mem _ _ _ _ ht1]
    simp [predOf, hpt]
  simp only [lruCache.deleteTail, htail, load, ht, mapGetD, hm, setNext, hp, Option.pure_def,
    Option.bind_eq_bind, Option.some_bind]

theorem deleteTail_spec {l : lruCache V} {init : List (Cell V)} {p t : Cell V}
    (hi : Inv l (init ++ [p, t])) :
    ∃ l', l.deleteTail = some l' ∧
      Inv { l' with currentCount := l'.currentCount - 1 } (init ++ [p]) ∧
      l'.maxCount = l.maxCount := by
  refine ⟨_, deleteTail_eval hi, ?_, rfl⟩
  have hkeys := hi.keys
  rw [List.map_append, List.map_cons, List.map_cons] at hkeys
  obtain ⟨hpt, ⟨hp1, ht1⟩, -, -⟩ := nodup_split hkeys
  obtain ⟨⟨h0p, h0t, hpta⟩, ⟨h0init, hpinit, htinit⟩, -⟩ := addr_facts hi.addrs
  have hsplit := (Seg_append _ init [p, t] none).mp hi.seg
  have hp : l.heap[p.addr]? = some { key := p.key, val := p.val, next := some t.addr } :=
    hsplit.2.1
  have hpl := get_lt hp
  have hsub : (init ++ [p]).Sublist (init ++ [p, t]) := by
    have : init ++ [p, t] = (init ++ [p]) ++ [t] := by simp
    rw [this]
    exact List.sublist_append_left _ _
  constructor
  · exact hi.first
  · exact hi.header
  · have := hi.sentinel
    rw [hdOr_append] at this ⊢
    simp only [List.getElem?_set_ne (Ne.symm h0p)]
    exact this
  · rw [Seg_append]
    refine ⟨?_, ?_, trivial⟩
    · rw [Seg_set_frame _ _ _ _ _ hpinit]
      exact hsplit.1
    · simp only [List.getElem?_set_self hpl, hdOr]
  · exact List.Nodup.sublist ((hsub.map Cell.addr).cons₂ 0) hi.addrs
  · exact List.Nodup.sublist (hsub.map Cell.key) hi.keys
  · intro k
    simp only [mapGet_mapDelete, hi.index]
    have hnot : t.key ∉ (init ++ [p]).map Cell.key := by
      simp only [List.map_append, List.map_cons, List.map_nil, List.mem_append,
        List.mem_singleton, not_or]
      exact ⟨ht1, Ne.symm hpt⟩
    have hlist : init ++ [p, t] = (init ++ [p]) ++ [t] := by simp
    by_cases hk : k = t.key
    · subst hk
      rw [if_pos rfl]
      exact ((predOf_eq_none_iff 0 _ _).mpr hnot).symm
    · have hk2 : ¬ t.key = k := fun h => hk h.symm
      rw [if_neg hk, hlist, predOf_append]
      by_cases hmem : k ∈ (init ++ [p]).map Cell.key
      · rw [if_pos hmem]
      · rw [if_neg hmem, (predOf_eq_none_iff 0 _ _).mpr hmem]
        simp [predOf, hk2]
  · exact mapDelete_keys_nodup _ _ hi.indexKeys
  · simp only [lastAddr_concat]
  · have := hi.count
    simp only [List.length_append, List.length_cons, List.length_nil] at this ⊢
    rw [this]
    push_cast
    ring
  · have := hi.cap
    simp only [List.length_append, List.length_cons, List.length_nil] at this ⊢
    push_cast at this ⊢
    omega
  · exact hi.capLo
  · exact hi.capHi
  · have := hi.room
    simp only [List.length_append, List.length_cons, List.length_nil, List.length_set] at this ⊢
    omega

theorem setVal_front {l : lruCache V} {c : Cell V} {rest : List (Cell V)}
    (hi : Inv l (c :: rest)) (v : Option V) :
    Inv { l with heap := l.heap.set c.addr { key := c.key, val := v, next := hdOr rest none } }
      ({ addr := c.addr, key := c.key, val := v } :: rest) := by
  have hc := hi.seg.1
  have hcl := get_lt hc
  have haddrs := hi.addrs
  simp only [List.map_cons, List.nodup_cons, List.mem_cons, not_or] at haddrs
  constructor
  · exact hi.first
  · exact hi.header
  · have := hi.sentinel
    simp only [List.getElem?_set_ne (Ne.symm haddrs.1.1)]
    exact this
  · refine ⟨?_, ?_⟩
    · simp only [List.getElem?_set_self hcl]
    · rw [Seg_set_frame _ _ _ _ _ haddrs.2.1]
      exact hi.seg.2
  · exact hi.addrs
  · exact hi.keys
  · exact hi.index
  · exact hi.indexKeys
  · exact hi.tail
  · exact hi.count
  · exact hi.cap
  · exact hi.capLo
  · exact hi.capHi
  · have := hi.room
    simp only [List.length_cons, List.length_set] at this ⊢
    exact this

theorem Set_empty {l : lruCache V} (hi : Inv l []) (k : String) (v : Option V) :
    ∃ l', l.Set ne k v = some (none, l') ∧
      Inv l' [{ addr := l.heap.length, key := k, val := v }] ∧ l'.maxCount = l.maxCount := by
  obtain ⟨l', hins, hinv, hmax⟩ := insertFirstElem_spec hi k v
  refine ⟨l', ?_, hinv, hmax⟩
  simp only [lruCache.Set, Get_empty hi k, hins, Option.pure_def, Option.bind_eq_bind,
    Option.some_bind]

/-- What `Set` does for a stored key, by the outcome of the comparison. -/
theorem Set_hit {l : lruCache V} {pre post : List (Cell V)} {c : Cell V}
    (hi : Inv l (pre ++ c :: post)) (v : Option V) :
    (ne c.val v = none → l.Set ne c.key v = none) ∧
    (ne c.val v = some true →
      ∃ l', l.Set ne c.key v = some (none, l') ∧
        Inv l' ({ addr := c.addr, key := c.key, val := v } :: (pre ++ post)) ∧
        l'.maxCount = l.maxCount) ∧
    (ne c.val v = some false →
      ∃ l', l.Set ne c.key v = some (none, l') ∧ Inv l' (c :: (pre ++ post)) ∧
        l'.maxCount = l.maxCount) := by
  obtain ⟨l1, hget, hinv1, hmax1⟩ := Get_hit hi
  refine ⟨?_, ?_, ?_⟩
  · intro hne
    simp only [lruCache.Set, hget, hne, Option.pure_def, Option.bind_eq_bind,
      Option.some_bind, Option.none_bind]
  · intro hne
    refine ⟨_, ?_, setVal_front hinv1 v, hmax1⟩
    have hs := hinv1.sentinel
    have hc := hinv1.seg.1
    simp only [lruCache.Set, hget, hne, ↓reduceIte, hinv1.header, load,
      hs, hdOr, setVal, hc, Option.pure_def, Option.bind_eq_bind, Option.some_bind]
  · intro hne
    refine ⟨l1, ?_, hinv1, hmax1⟩
    simp only [lruCache.Set, hget, hne, Bool.false_eq_true, ↓reduceIte, Option.pure_def,
      Option.bind_eq_bind, Option.some_bind]

/-- `Set` for a stored key when the comparison returns `b`: the entry moves to the front
and holds the new value if `b` says unequal, the old one otherwise. -/
theorem Set_hit_some {l : lruCache V} {pre post : List (Cell V)} {c : Cell V}
    (hi : Inv l (pre ++ c :: post)) (v : Option V) (b : Bool) (hb : ne c.val v = some b) :
    ∃ l', l.Set ne c.key v = some (none, l') ∧
      Inv l' ({ addr := c.addr, key := c.key, val := if b then v else c.val } :: (pre ++ post)) ∧
      l'.maxCount = l.maxCount := by
  obtain ⟨-, h2, h3⟩ := Set_hit ne hi v
  cases b with
  | true => exact h2 hb
  | false =>
    obtain ⟨l', hs, hinv, hmax⟩ := h3 hb
    exact ⟨l', hs, hinv, hmax⟩

theorem Set_miss_room {l : lruCache V} {cs : List (Cell V)} (hi : Inv l cs) (k : String)
    (v : Option V) (hne : cs ≠ []) (hk : k ∉ cs.map Cell.key)
    (hroom : (cs.length : Int) < l.maxCount) :
    ∃ l', l.Set ne k v = some (none, l') ∧
      Inv l' ({ addr := l.heap.length, key := k, val := v } :: cs) ∧
      l'.maxCount = l.maxCount := by
  obtain ⟨f, rest, rfl⟩ := List.exists_cons_of_ne_nil hne
  obtain ⟨l', hins, hinv, hmax⟩ := insertFront_spec hi k v hk hroom
  refine ⟨l', ?_, hinv, hmax⟩
  have hcond : l.maxCount ≠ l.currentCount := by
    rw [hi.count]
    omega
  simp only [lruCache.Set, Get_miss hi k hne hk, insertElem_of_ne l k v hcond, hins,
    Option.pure_def, Option.bind_eq_bind, Option.some_bind]

theorem Set_miss_full {l : lruCache V} {cs : List (Cell V)} (hi : Inv l cs) (k : String)
    (v : Option V) (hk : k ∉ cs.map Cell.key) (hfull : (cs.length : Int) = l.maxCount) :
    ∃ l' a, l.Set ne k v = some (none, l') ∧
      Inv l' ({ addr := a, key := k, val := v } :: cs.dropLast) ∧
      l'.maxCount = l.maxCount := by
  have hlo := hi.capLo
  have hlen : 2 ≤ cs.length := by omega
  obtain ⟨init, p, t, rfl⟩ : ∃ init p t, cs = init ++ [p, t] := by
    rcases List.eq_nil_or_concat cs with rfl | ⟨cs1, t, rfl⟩
    · simp at hlen
    · rcases List.eq_nil_or_concat cs1 with rfl | ⟨init, p, rfl⟩
      · simp at hlen
      · exact ⟨init, p, t, by simp⟩
  have hne : init ++ [p, t] ≠ [] := by simp
  obtain ⟨l1, hdel, hinv1, hmax1⟩ := deleteTail_spec hi
  have hk1 : k ∉ (init ++ [p]).map Cell.key := by
    intro h
    apply hk
    simp only [List.map_append, List.map_cons, List.map_nil, List.mem_append, List.mem_cons,
      List.mem_singleton, List.not_mem_nil, or_false] at h ⊢
    tauto
  have hdrop : (init ++ [p, t]).dropLast = init ++ [p] := by
    have : init ++ [p, t] = (init ++ [p]) ++ [t] := by simp
    rw [this, List.dropLast_concat]
  obtain ⟨f, rest, hfr⟩ := List.exists_cons_of_ne_nil (l := init ++ [p]) (by simp)
  rw [hfr] at hinv1 hk1
  have hroom : ((f :: rest).length : Int) < l1.maxCount := by
    rw [hmax1, ← hfull, ← hfr]
    simp only [List.length_append, List.length_cons, List.length_nil]
    push_cast
    omega
  obtain ⟨l2, hins, hinv2, hmax2⟩ := insertFront_spec hinv1 k v hk1 hroom
  refine ⟨l2, l1.heap.length, ?_, ?_, ?_⟩
  · have hcond : l.maxCount = l.currentCount := by
      rw [hi.count]
      exact hfull.symm
    simp only [lruCache.Set, Get_miss hi k hne hk, insertElem_of_eq l l1 k v hcond hdel, hins,
      Option.pure_def, Option.bind_eq_bind, Option.some_bind]
  · rw [hdrop, hfr]
    exact hinv2
  · rw [hmax2]
    exact hmax1

/-! ### From cells to stored `(key, value)` pairs -/

theorem map_key_eq (cs : List (Cell V)) : cs.map Cell.key = (cs.map Cell.kv).map Prod.fst := by
  simp [Cell.kv, Function.comp_def]

theorem map_val_eq (cs : List (Cell V)) : cs.map Cell.val = (cs.map Cell.kv).map Prod.snd := by
  simp [Cell.kv, Function.comp_def]

theorem cells_split {cs : List (Cell V)} {pre post : List (String × Option V)} {k : String}
    {w : Option V} (h : cs.map Cell.kv = pre ++ (k, w) :: post) :
    ∃ cpre c cpost, cs = cpre ++ c :: cpost ∧ cpre.map Cell.kv = pre ∧ c.key = k ∧ c.val = w ∧
      cpost.map Cell.kv = post := by
  obtain ⟨cpre, crest, rfl, hpre, hrest⟩ := List.map_eq_append_iff.mp h
  obtain ⟨c, cpost, rfl, hc, hpost⟩ := List.map_eq_cons_iff.mp hrest
  refine ⟨cpre, c, cpost, rfl, hpre, ?_, ?_, hpost⟩
  · exact congrArg Prod.fst hc
  · exact congrArg Prod.snd hc

theorem Inv.entries_inj {l : lruCache V} {cs : List (Cell V)} (hi : Inv l cs)
    {L : List (String × Option V)} (h : l.entries = some L) : cs.map Cell.kv = L := by
  rw [hi.entries_eq] at h
  exact Option.some.inj h

theorem Get_of_mem {l : lruCache V} {cs : List (Cell V)} (hi : Inv l cs) {k : String}
    {w : Option V} (h : (k, w) ∈ cs.map Cell.kv) :
    ∃ l', l.Get k = some ((w, none), l') := by
  obtain ⟨pre, post, hsplit⟩ := List.append_of_mem h
  obtain ⟨cpre, c, cpost, rfl, -, rfl, rfl, -⟩ := cells_split hsplit
  obtain ⟨l', hg, -, -⟩ := Get_hit hi
  exact ⟨l', hg⟩

theorem Get_total {l : lruCache V} {cs : List (Cell V)} (hi : Inv l cs) (k : String) :
    ∃ r l' cs', l.Get k = some (r, l') ∧ Inv l' cs' ∧ l'.maxCount = l.maxCount := by
  by_cases hk : k ∈ cs.map Cell.key
  · obtain ⟨c, hc, rfl⟩ := List.mem_map.mp hk
    obtain ⟨pre, post, rfl⟩ := List.append_of_mem hc
    obtain ⟨l', hg, hinv, hmax⟩ := Get_hit hi
    exact ⟨_, l', _, hg, hinv, hmax⟩
  · by_cases hne : cs = []
    · subst hne
      exact ⟨_, l, [], Get_empty hi k, hi, rfl⟩
    · exact ⟨_, l, cs, Get_miss hi k hne hk, hi, rfl⟩

/-- `Set` of a key that is not stored returns nil and puts the new entry in front; no
payload is compared. -/
theorem Set_absent {l : lruCache V} {cs : List (Cell V)} (hi : Inv l cs) (k : String)
    (v : Option V) (hk : k ∉ cs.map Cell.key) :
    ∃ l' a rest, l.Set ne k v = some (none, l') ∧
      Inv l' ({ addr := a, key := k, val := v } :: rest) ∧ l'.maxCount = l.maxCount := by
  by_cases hne : cs = []
  · subst hne
    obtain ⟨l', hs, hinv, hmax⟩ := Set_empty ne hi k v
    exact ⟨l', _, _, hs, hinv, hmax⟩
  · by_cases hroom : (cs.length : Int) < l.maxCount
    · obtain ⟨l', hs, hinv, hmax⟩ := Set_miss_room ne hi k v hne hk hroom
      exact ⟨l', _, _, hs, hinv, hmax⟩
    · have hfull : (cs.length : Int) = l.maxCount := by
        have := hi.cap
        omega
      obtain ⟨l', a, hs, hinv, hmax⟩ := Set_miss_full ne hi k v hk hfull
      exact ⟨l', _, _, hs, hinv, hmax⟩

/-- `Set k v` returns nil whenever comparing a payload with `v` does not panic; the entry of
`k` is then in front and holds `v`, or the value it held before if the comparison found that
one equal to `v`. -/
theorem Set_total {l : lruCache V} {cs : List (Cell V)} (hi : Inv l cs) (k : String)
    (v : Option V) (hv : ∀ a, ne a v ≠ none) :
    ∃ l' a x rest, l.Set ne k v = some (none, l') ∧
      Inv l' ({ addr := a, key := k, val := x } :: rest) ∧
      l'.maxCount = l.maxCount ∧ (x = v ∨ ne x v = some false) := by
  by_cases hk : k ∈ cs.map Cell.key
  · obtain ⟨c, hc, rfl⟩ := List.mem_map.mp hk
    obtain ⟨pre, post, rfl⟩ := List.append_of_mem hc
    cases hb : ne c.val v with
    | none => exact absurd hb (hv c.val)
    | some b =>
      obtain ⟨l', hs, hinv, hmax⟩ := Set_hit_some ne hi v b hb
      refine ⟨l', _, _, _, hs, hinv, hmax, ?_⟩
      cases b with
      | true => exact Or.inl rfl
      | false => exact Or.inr hb
  · obtain ⟨l', a, rest, hs, hinv, hmax⟩ := Set_absent ne hi k v hk
    exact ⟨l', a, v, rest, hs, hinv, hmax, Or.inl rfl⟩

/-- A `Set` that returns keeps the invariant and returns nil. -/
theorem Set_inv {l l' : lruCache V} {cs : List (Cell V)} (hi : Inv l cs) (k : String)
    (v : Option V) (e : Option Err) (h : l.Set ne k v = some (e, l')) :
    e = none ∧ ∃ cs', Inv l' cs' ∧ l'.maxCount = l.maxCount := by
  by_cases hk : k ∈ cs.map Cell.key
  · obtain ⟨c, hc, rfl⟩ := List.mem_map.mp hk
    obtain ⟨pre, post, rfl⟩ := List.append_of_mem hc
    cases hb : ne c.val v with
    | none =>
      rw [(Set_hit ne hi v).1 hb] at h
      exact absurd h (by simp)
    | some b =>
      obtain ⟨l2, hs, hinv, hmax⟩ := Set_hit_some ne hi v b hb
      rw [hs] at h
      obtain ⟨rfl, rfl⟩ := Prod.mk.inj (Option.some.inj h)
      exact ⟨rfl, _, hinv, hmax⟩
  · obtain ⟨l2, a, rest, hs, hinv, hmax⟩ := Set_absent ne hi k v hk
    rw [hs] at h
    obtain ⟨rfl, rfl⟩ := Prod.mk.inj (Option.some.inj h)
    exact ⟨rfl, _, hinv, hmax⟩

/-- A `Set k v` changes nothing when `k` is in front and holds `v`, or a value that the
comparison finds equal to `v`, provided comparing `v` with itself does not panic. -/
theorem Set_front_same {l : lruCache V} {c : Cell V} {rest : List (Cell V)}
    (hi : Inv l (c :: rest)) (v : Option V) (hx : c.val = v ∨ ne c.val v = some false)
    (hvv : ne v v ≠ none) : l.Set ne c.key v = some (none, l) := by
  have hget := Get_front hi
  cases hb : ne c.val v with
  | none =>
    rcases hx with hx | hx
    · rw [hx] at hb
      exact absurd hb hvv
    · rw [hx] at hb
      exact absurd hb (by simp)
  | some b =>
    cases b with
    | false =>
      simp only [lruCache.Set, hget, hb, Bool.false_eq_true, ↓reduceIte, Option.pure_def,
        Option.bind_eq_bind, Option.some_bind]
    | true =>
      have hcv : c.val = v := by
        rcases hx with hx | hx
        · exact hx
        · rw [hx] at hb
          exact absurd hb (by simp)
      have hs : l.heap[0]? = some { key := "", val := none, next := some c.addr } :=
        hi.sentinel
      have hc := hi.seg.1
      have hh := hi.header
      have hset : l.heap.set c.addr { key := c.key, val := v, next := hdOr rest none } =
          l.heap := by
        rw [← hcv]
        exact set_same _ _ _ hc
      simp only [lruCache.Set, hget, hb, ↓reduceIte, hh, load, hs, setVal, hc,
        Option.pure_def, Option.bind_eq_bind, Option.some_bind, hset]
      rw [← hh]

/-! ### Reachable caches -/

/-- Calls other than `Clear` keep the invariant: the state a run of them returns stores a
chain. -/
theorem run_inv_noClear {l s : lruCache V} {cs : List (Cell V)} (hi : Inv l cs)
    (ops : List (Op V)) (hops : ∀ o ∈ ops, o.isClear = false) (hrun : run ne l ops = some s) :
    ∃ cs', Inv s cs' ∧ s.maxCount = l.maxCount := by
  induction ops generalizing l cs with
  | nil =>
    obtain rfl := Option.some.inj hrun
    exact ⟨cs, hi, rfl⟩
  | cons o ops ih =>
    have hrest : ∀ o' ∈ ops, o'.isClear = false := fun o' h => hops o' (List.mem_cons_of_mem _ h)
    have ho := hops o (List.mem_cons_self _ _)
    cases o with
    | Get k =>
      obtain ⟨r, l', cs', hg, hinv, hmax⟩ := Get_total hi k
      simp only [run, step, hg, Option.map_some', Option.some_bind] at hrun
      obtain ⟨cs'', hinv', hmax'⟩ := ih hinv hrest hrun
      exact ⟨cs'', hinv', hmax'.trans hmax⟩
    | Set k v =>
      cases hs : l.Set ne k v with
      | none => simp [run, step, hs] at hrun
      | some r =>
        obtain ⟨e, l'⟩ := r
        obtain ⟨-, cs', hinv, hmax⟩ := Set_inv ne hi k v e hs
        simp only [run, step, hs, Option.map_some', Option.some_bind] at hrun
        obtain ⟨cs'', hinv', hmax'⟩ := ih hinv hrest hrun
        exact ⟨cs'', hinv', hmax'.trans hmax⟩
    | Clear => simp [Op.isClear] at ho
    | GetAllValue =>
      simp only [run, step, hi.GetAllValue_eq, Option.map_some', Option.some_bind] at hrun
      exact ih hi hrest hrun

/-- Calls other than `Clear` all return when the payload comparison never panics. -/
theorem run_total_noClear (htot : ∀ a b, ne a b ≠ none) {l : lruCache V} {cs : List (Cell V)}
    (hi : Inv l cs) (ops : List (Op V)) (hops : ∀ o ∈ ops, o.isClear = false) :
    ∃ s cs', run ne l ops = some s ∧ Inv s cs' ∧ s.maxCount = l.maxCount := by
  induction ops generalizing l cs with
  | nil => exact ⟨l, cs, rfl, hi, rfl⟩
  | cons o ops ih =>
    have hrest : ∀ o' ∈ ops, o'.isClear = false := fun o' h => hops o' (List.mem_cons_of_mem _ h)
    have ho := hops o (List.mem_cons_self _ _)
    cases o with
    | Get k =>
      obtain ⟨r, l', cs', hg, hinv, hmax⟩ := Get_total hi k
      obtain ⟨s, cs'', hrun, hinv', hmax'⟩ := ih hinv hrest
      refine ⟨s, cs'', ?_, hinv', hmax'.trans hmax⟩
      simp only [run, step, hg, Option.map_some', Option.some_bind, hrun]
    | Set k v =>
      obtain ⟨l', a, x, rest, hs, hinv, hmax, -⟩ := Set_total ne hi k v (fun a => htot a v)
      obtain ⟨s, cs'', hrun, hinv', hmax'⟩ := ih hinv hrest
      refine ⟨s, cs'', ?_, hinv', hmax'.trans hmax⟩
      simp only [run, step, hs, Option.map_some', Option.some_bind, hrun]
    | Clear => simp [Op.isClear] at ho
    | GetAllValue =>
      obtain ⟨s, cs'', hrun, hinv', hmax'⟩ := ih hi hrest
      refine ⟨s, cs'', ?_, hinv', hmax'⟩
      simp only [run, step, hi.GetAllValue_eq, Option.map_some', Option.some_bind, hrun]

theorem isClear_of_isGetSet {o : Op V} (h : o.isGetSet = true) : o.isClear = false := by
  cases o <;> simp [Op.isGetSet, Op.isClear] at h ⊢

theorem run_inv {l s : lruCache V} {cs : List (Cell V)} (hi : Inv l cs)
    (ops : List (Op V)) (hops : ∀ o ∈ ops, o.isGetSet = true) (hrun : run ne l ops = some s) :
    ∃ cs', Inv s cs' ∧ s.maxCount = l.maxCount :=
  run_inv_noClear ne hi ops (fun o ho => isClear_of_isGetSet (hops o ho)) hrun

theorem reach_inv_noClear {n : Int} {ops : List (Op V)} {s : lruCache V}
    (hops : ∀ o ∈ ops, o.isClear = false) (hrun : run ne (NewLru n) ops = some s) :
    ∃ cs, Inv s cs ∧ s.maxCount = (NewLru n : lruCache V).maxCount :=
  run_inv_noClear ne (Inv_NewLru n) ops hops hrun

theorem reach_inv {n : Int} {ops : List (Op V)} {s : lruCache V}
    (hops : ∀ o ∈ ops, o.isGetSet = true) (hrun : run ne (NewLru n) ops = some s) :
    ∃ cs, Inv s cs ∧ s.maxCount = (NewLru n : lruCache V).maxCount :=
  run_inv ne (Inv_NewLru n) ops hops hrun

theorem run_append (l : lruCache V) (xs ys : List (Op V)) :
    run ne l (xs ++ ys) = (run ne l xs).bind (fun s => run ne s ys) := by
  induction xs generalizing l with
  | nil => rfl
  | cons o xs ih =>
    simp only [List.cons_append, run]
    cases step ne l o with
    | none => rfl
    | some l1 => exact ih l1

/-- Inserting fresh distinct keys while there is room stacks them in front. -/
theorem run_fill {l : lruCache V} {cs : List (Cell V)} (hi : Inv l cs)
    (kvs : List (String × Option V))
    (hnd : (kvs.map Prod.fst ++ cs.map Cell.key).Nodup)
    (hroom : ((cs.length + kvs.length : Nat) : Int) ≤ l.maxCount) :
    ∃ s cs', run ne l (setOps kvs) = some s ∧ Inv s cs' ∧
      cs'.map Cell.kv = kvs.reverse ++ cs.map Cell.kv ∧ s.maxCount = l.maxCount := by
  induction kvs generalizing l cs with
  | nil => exact ⟨l, cs, rfl, hi, by simp, rfl⟩
  | cons kv kvs ih =>
    obtain ⟨k, v⟩ := kv
    simp only [List.map_cons, List.cons_append, List.nodup_cons, List.mem_append, not_or] at hnd
    obtain ⟨⟨hk1, hk2⟩, hnd'⟩ := hnd
    simp only [List.length_cons] at hroom
    have hlt : (cs.length : Int) < l.maxCount := by
      push_cast at hroom
      omega
    obtain ⟨l1, hs, hinv1, hmax1⟩ :
        ∃ l1, l.Set ne k v = some (none, l1) ∧
          Inv l1 ({ addr := l.heap.length, key := k, val := v } :: cs) ∧
          l1.maxCount = l.maxCount := by
      by_cases hne : cs = []
      · subst hne
        exact Set_empty ne hi k v
      · exact Set_miss_room ne hi k v hne hk2 hlt
    have hnd1 : (kvs.map Prod.fst ++
        (({ addr := l.heap.length, key := k, val := v } : Cell V) :: cs).map Cell.key).Nodup := by
      rw [List.map_cons]
      refine (List.Perm.nodup_iff (List.perm_middle)).mpr ?_
      rw [List.nodup_cons]
      exact ⟨by simp only [List.mem_append, not_or]; exact ⟨hk1, hk2⟩, hnd'⟩
    have hroom1 : ((((({ addr := l.heap.length, key := k, val := v } : Cell V) :: cs).length +
        kvs.length : Nat)) : Int) ≤ l1.maxCount := by
      rw [hmax1]
      simp only [List.length_cons]
      push_cast at hroom ⊢
      omega
    obtain ⟨s, cs', hrun, hinv, hkv, hmax⟩ := ih hinv1 hnd1 hroom1
    refine ⟨s, cs', ?_, hinv, ?_, hmax.trans hmax1⟩
    · simp only [setOps, List.map_cons, run, step, hs, Option.map_some', Option.some_bind]
      exact hrun
    · rw [hkv]
      simp [Cell.kv]

theorem clamp_eq (n : Int) : (NewLru n : lruCache V).maxCount = min (max n 10) 1000 := by
  unfold NewLru
  simp only [alloc, MinElem, MaxElem]
  split_ifs <;> omega

theorem Inv.index_none_iff {l : lruCache V} {cs : List (Cell V)} (hi : Inv l cs) (k : String) :
    mapGet l.keyMap k = none ↔ k ∉ (cs.map Cell.kv).map Prod.fst := by
  rw [hi.index k, predOf_eq_none_iff, map_key_eq]

/-- What `Set` of a key that is stored does, in terms of the stored pairs, when the
comparison of the stored value `w` with `v` returns `b`. -/
theorem Set_stored {l : lruCache V} {cs : List (Cell V)} (hi : Inv l cs)
    {pre post : List (String × Option V)} {k : String} {w : Option V}
    (hL : cs.map Cell.kv = pre ++ (k, w) :: post) (v : Option V) (b : Bool)
    (hb : ne w v = some b) :
    ∃ l' cs', l.Set ne k v = some (none, l') ∧ Inv l' cs' ∧
      cs'.map Cell.kv = (k, if b then v else w) :: (pre ++ post) ∧
      l'.maxCount = l.maxCount := by
  obtain ⟨cpre, c, cpost, rfl, rfl, rfl, rfl, rfl⟩ := cells_split hL
  obtain ⟨l', hs, hinv, hmax⟩ := Set_hit_some ne hi v b hb
  exact ⟨l', _, hs, hinv, by simp [Cell.kv], hmax⟩

/-- What `Get` of a key that is stored does, in terms of the stored pairs. -/
theorem Get_stored {l : lruCache V} {cs : List (Cell V)} (hi : Inv l cs)
    {pre post : List (String × Option V)} {k : String} {w : Option V}
    (hL : cs.map Cell.kv = pre ++ (k, w) :: post) :
    ∃ l' cs', l.Get k = some ((w, none), l') ∧ Inv l' cs' ∧
      cs'.map Cell.kv = (k, w) :: (pre ++ post) ∧ l'.maxCount = l.maxCount := by
  obtain ⟨cpre, c, cpost, rfl, rfl, rfl, rfl, rfl⟩ := cells_split hL
  obtain ⟨l', hs, hinv, hmax⟩ := Get_hit hi
  exact ⟨l', _, hs, hinv, by simp [Cell.kv], hmax⟩

/-- What `Set` of a key that is not stored does to a full cache. -/
theorem Set_evict {l : lruCache V} {cs : List (Cell V)} (hi : Inv l cs)
    {init : List (String × Option V)} {ke : String} {we : Option V}
    (hL : cs.map Cell.kv = init ++ [(ke, we)]) (k : String) (v : Option V)
    (hk : k ∉ (init ++ [(ke, we)]).map Prod.fst)
    (hfull : ((init ++ [(ke, we)]).length : Int) = l.maxCount) :
    ∃ l' cs', l.Set ne k v = some (none, l') ∧ Inv l' cs' ∧
      cs'.map Cell.kv = (k, v) :: init ∧ l'.maxCount = l.maxCount := by
  have hk' : k ∉ cs.map Cell.key := by
    rw [map_key_eq, hL]
    exact hk
  have hfull' : (cs.length : Int) = l.maxCount := by
    rw [← hfull, ← hL, List.length_map]
  obtain ⟨l', a, hs, hinv, hmax⟩ := Set_miss_full ne hi k v hk' hfull'
  refine ⟨l', _, hs, hinv, ?_, hmax⟩
  rw [List.map_cons, List.map_dropLast, hL, List.dropLast_concat]
  rfl

theorem walkPtrs_Seg (h : List (Elem V)) (cs : List (Cell V)) (fuel : Nat)
    (hs : Seg h cs none) (hf : cs.length ≤ fuel) :
    walkPtrs h fuel (hdOr cs none) = some (cs.map Cell.addr) := by
  induction cs generalizing fuel with
  | nil => cases fuel <;> simp [hdOr, walkPtrs]
  | cons c cs ih =>
    cases fuel with
    | zero => simp at hf
    | succ fuel =>
      have hf2 : cs.length ≤ fuel := by simpa using hf
      show walkPtrs h (fuel + 1) (some c.addr) = _
      simp only [walkPtrs, hs.1, ih fuel hs.2 hf2, Option.map_some', List.map_cons]

theorem Inv.chain_eq {l : lruCache V} {cs : List (Cell V)} (hi : Inv l cs) :
    l.chain = some (cs.map Cell.addr) := by
  have hw := walkPtrs_Seg l.heap cs l.heap.length hi.seg (Nat.le_of_lt hi.room)
  simp [lruCache.chain, hi.header, load, hi.sentinel, hw]

/-- A `Get` that returns an error returns the state it was given, and a nil value. -/
theorem Get_error_unchanged (l l' : lruCache V) (k : String) (v : Option V) (e : Err)
    (h : l.Get k = some ((v, some e), l')) :
    v = none ∧ l' = l ∧ (e = Err.EmptyErr ∨ e = Err.NotFoundErr) := by
  unfold lruCache.Get at h
  cases hE : l.Empty with
  | none => simp [hE] at h
  | some b =>
    cases b with
    | true =>
      simp only [hE, Option.pure_def, Option.bind_eq_bind, Option.some_bind, ↓reduceIte,
        Option.some.injEq, Prod.mk.injEq] at h
      obtain ⟨⟨h1, h2⟩, h3⟩ := h
      exact ⟨h1.symm, h3.symm, Or.inl h2.symm⟩
    | false =>
      simp only [hE, Option.pure_def, Option.bind_eq_bind, Option.some_bind] at h
      cases hm : mapGet l.keyMap k with
      | none =>
        simp only [hm, Bool.false_eq_true, ↓reduceIte, Option.some.injEq, Prod.mk.injEq] at h
        obtain ⟨⟨h1, h2⟩, h3⟩ := h
        exact ⟨h1.symm, h3.symm, Or.inr h2.symm⟩
      | some elem =>
        simp only [hm, Bool.false_eq_true, ↓reduceIte] at h
        cases h1 : load l.heap elem with
        | none => simp [h1] at h
        | some e1 =>
          cases h2 : load l.heap e1.next with
          | none => simp [h1, h2] at h
          | some n =>
            cases h3 : l.moveElem2Header elem with
            | none => simp [h1, h2, h3] at h
            | some l1 => simp [h1, h2, h3] at h

/-! ### The index and the tail under the invariant -/

theorem mapGet_eq_none_iff (m : List (String × Ptr)) (k : String) :
    mapGet m k = none ↔ k ∉ m.map Prod.fst := by
  induction m with
  | nil => simp [mapGet]
  | cons e m ih =>
    obtain ⟨a, p⟩ := e
    by_cases hak : a = k
    · simp [mapGet, hak]
    · have hka : ¬ k = a := fun h => hak h.symm
      simp [mapGet, hak, hka, ih]

theorem Inv.index_mem_iff {l : lruCache V} {cs : List (Cell V)} (hi : Inv l cs) (k : String) :
    k ∈ l.keyMap.map Prod.fst ↔ k ∈ cs.map Cell.key := by
  have h1 := mapGet_eq_none_iff l.keyMap k
  rw [hi.index k, predOf_eq_none_iff] at h1
  exact not_iff_not.mp h1.symm

theorem Inv.index_length {l : lruCache V} {cs : List (Cell V)} (hi : Inv l cs) :
    l.keyMap.length = cs.length := by
  have hperm : (l.keyMap.map Prod.fst).Perm (cs.map Cell.key) :=
    (List.perm_ext_iff_of_nodup hi.indexKeys hi.keys).mpr (fun k => hi.index_mem_iff k)
  have := hperm.length_eq
  simpa using this

theorem Seg_mem (h : List (Elem V)) (cs : List (Cell V)) (e : Ptr) (hs : Seg h cs e)
    (c : Cell V) (hc : c ∈ cs) :
    ∃ nx, h[c.addr]? = some { key := c.key, val := c.val, next := nx } := by
  induction cs with
  | nil => simp at hc
  | cons d cs ih =>
    rcases List.mem_cons.mp hc with rfl | hc'
    · exact ⟨_, hs.1⟩
    · exact ih hs.2 hc'

theorem Seg_last (h : List (Elem V)) (cs : List (Cell V)) (c : Cell V) (e : Ptr)
    (hs : Seg h (cs ++ [c]) e) :
    h[c.addr]? = some { key := c.key, val := c.val, next := e } :=
  ((Seg_append h cs [c] e).mp hs).2.1

theorem lastAddr_eq_getLast (prev : Nat) (cs : List (Cell V)) (hne : cs.map Cell.addr ≠ []) :
    lastAddr prev cs = (cs.map Cell.addr).getLast hne := by
  rcases List.eq_nil_or_concat cs with rfl | ⟨cs', c, rfl⟩
  · simp at hne
  · simp [lastAddr_concat]

/-- What an index entry points to: a cell (the sentinel `prev` or a chain cell) whose
successor is the chain cell with that key. -/
theorem predOf_sound (h : List (Elem V)) (cs : List (Cell V)) (e : Ptr) (prev : Nat)
    (e0 : Elem V) (k : String) (p : Ptr)
    (h0 : h[prev]? = some e0) (hn : e0.next = hdOr cs e) (hs : Seg h cs e)
    (hp : predOf prev cs k = some p) :
    ∃ a ep c, p = some a ∧ (a = prev ∨ a ∈ cs.map Cell.addr) ∧ h[a]? = some ep ∧
      ep.next = some c.addr ∧ c ∈ cs ∧ c.key = k := by
  induction cs generalizing prev e0 with
  | nil => simp [predOf] at hp
  | cons c cs ih =>
    by_cases hk : c.key = k
    · simp only [predOf, hk, ↓reduceIte, Option.some.injEq] at hp
      exact ⟨prev, e0, c, hp.symm, Or.inl rfl, h0, hn, List.mem_cons_self _ _, hk⟩
    · simp only [predOf, hk, ↓reduceIte] at hp
      obtain ⟨a, ep, c', hpa, hmem, hha, hnext, hc', hkey⟩ :=
        ih c.addr { key := c.key, val := c.val, next := hdOr cs e } hs.1 rfl hs.2 hp
      refine ⟨a, ep, c', hpa, Or.inr ?_, hha, hnext, List.mem_cons_of_mem _ hc', hkey⟩
      rcases hmem with rfl | hmem
      · simp
      · simp only [List.map_cons, List.mem_cons]
        exact Or.inr hmem

theorem Inv.header_not_mem {l : lruCache V} {cs : List (Cell V)} (hi : Inv l cs) :
    ∀ a ∈ cs.map Cell.addr, some a ≠ l.header := by
  intro a ha h
  rw [hi.header] at h
  have := (List.nodup_cons.mp hi.addrs).1
  exact this (by rw [← Option.some.inj h]; exact ha)

/-- The count invariant in every state reached by public calls other than `Clear`: the
index has as many keys as `currentCount`, which is the number of entries on the chain from
`header.next`, and lies between 0 and `maxCount`. -/
theorem count_invariant_without_Clear (n : Int) (ops : List (Op V))
    (s : lruCache V) (hops : ∀ o ∈ ops, o.isClear = false)
    (hrun : run ne (NewLru n) ops = some s) :
    ∃ addrs, s.chain = some addrs ∧ (s.indexCount : Int) = s.currentCount ∧
      s.currentCount = (addrs.length : Int) ∧ 0 ≤ s.currentCount ∧
      s.currentCount ≤ s.maxCount := by
  obtain ⟨cs, hinv, -⟩ := reach_inv_noClear ne hops hrun
  refine ⟨cs.map Cell.addr, hinv.chain_eq, ?_, ?_, ?_, ?_⟩
  · rw [hinv.count, lruCache.indexCount, hinv.index_length]
  · rw [hinv.count, List.length_map]
  · rw [hinv.count]
    exact Int.natCast_nonneg _
  · rw [hinv.count]
    exact hinv.cap

/-! ### Refinement of the reference LRU -/

theorem nextOf_of_load {h : List (Elem V)} {p : Ptr} {e : Elem V} (hl : load h p = some e) :
    ∃ a, p = some a ∧ a < h.length ∧ h[a]? = some e ∧ nextOf h a = e.next := by
  cases p with
  | none => simp [load] at hl
  | some a =>
    simp only [load] at hl
    exact ⟨a, rfl, get_lt hl, hl, by simp [nextOf, hl]⟩

theorem nextOf_setNext {h h' : List (Elem V)} {p n : Ptr} (hs : setNext h p n = some h') :
    ∃ a, p = some a ∧ a < h.length ∧ h'.length = h.length ∧
      ∀ x, nextOf h' x = if x = a then n else nextOf h x := by
  cases p with
  | none => simp [setNext] at hs
  | some a =>
    cases ha : h[a]? with
    | none => simp [setNext, ha] at hs
    | some e =>
      simp only [setNext, ha, Option.some.injEq] at hs
      subst hs
      have hlt := get_lt ha
      refine ⟨a, rfl, hlt, by simp, ?_⟩
      intro x
      by_cases hx : x = a
      · subst hx
        simp [nextOf, List.getElem?_set_self hlt]
      · have hx' : a ≠ x := fun h => hx h.symm
        simp [nextOf, List.getElem?_set_ne hx', hx]

theorem nextOf_setVal {h h' : List (Elem V)} {p : Ptr} {v : Option V}
    (hs : setVal h p v = some h') :
    h'.length = h.length ∧ ∀ x, nextOf h' x = nextOf h x := by
  cases p with
  | none => simp [setVal] at hs
  | some a =>
    cases ha : h[a]? with
    | none => simp [setVal, ha] at hs
    | some e =>
      simp only [setVal, ha, Option.some.injEq] at hs
      subst hs
      have hlt := get_lt ha
      refine ⟨by simp, ?_⟩
      intro x
      by_cases hx : x = a
      · subst hx
        simp [nextOf, List.getElem?_set_self hlt, ha]
      · have hx' : a ≠ x := fun h => hx h.symm
        simp [nextOf, List.getElem?_set_ne hx']

theorem nextOf_alloc (h : List (Elem V)) (e : Elem V) (x : Nat) :
    nextOf (h ++ [e]) x = if x = h.length then e.next else nextOf h x := by
  by_cases hx : x = h.length
  · subst hx
    simp [nextOf]
  · rcases Nat.lt_or_gt_of_ne hx with hlt | hgt
    · simp [nextOf, List.getElem?_append_left hlt, hx]
    · have h1 : (h ++ [e])[x]? = none := by
        apply List.getElem?_eq_none
        simp
        omega
      have h2 : h[x]? = none := by
        apply List.getElem?_eq_none
        omega
      simp [nextOf, h1, h2, hx]

theorem nextOf_ge {h : List (Elem V)} {a : Nat} (ha : h.length ≤ a) : nextOf h a = none := by
  simp [nextOf, List.getElem?_eq_none ha]

theorem nextOf_setNext_some {h h' : List (Elem V)} {a : Nat} {n : Ptr}
    (hs : setNext h (some a) n = some h') :
    h'.length = h.length ∧ ∀ x, nextOf h' x = if x = a then n else nextOf h x := by
  obtain ⟨a', ha', -, hlen, hn⟩ := nextOf_setNext hs
  obtain rfl := Option.some.inj ha'
  exact ⟨hlen, hn⟩

theorem nextOf_of_load_some {h : List (Elem V)} {a : Nat} {e : Elem V}
    (hl : load h (some a) = some e) : a < h.length ∧ nextOf h a = e.next := by
  obtain ⟨a', ha', hlt, -, hn⟩ := nextOf_of_load hl
  obtain rfl := Option.some.inj ha'
  exact ⟨hlt, hn⟩

/-- The effect of `moveElem2Header` on the `next` pointers: nothing, or the cell `N` behind
`P` moves between the sentinel and the old first cell. -/
theorem move_nextOf {l l' : lruCache V} {elem : Ptr} (hh : l.header = some 0)
    (hf : l.firstElem = some 0) (h : l.moveElem2Header elem = some l') :
    l'.header = some 0 ∧ l'.firstElem = some 0 ∧ l'.heap.length = l.heap.length ∧
    ((∀ x, nextOf l'.heap x = nextOf l.heap x) ∨
      ∃ P N, P ≠ 0 ∧ nextOf l.heap P = some N ∧
        ∀ x, nextOf l'.heap x =
          if x = 0 then some N else if x = N then nextOf l.heap 0
          else if x = P then nextOf l.heap N else nextOf l.heap x) := by
  unfold lruCache.moveElem2Header at h
  by_cases he : elem = l.firstElem
  · rw [if_pos he] at h
    obtain rfl := Option.some.inj h
    exact ⟨hh, hf, rfl, Or.inl (fun _ => rfl)⟩
  · rw [if_neg he] at h
    simp only [Option.bind_eq_bind, Option.bind_eq_some, Option.pure_def] at h
    obtain ⟨e, hle, nf, hlnf, hrest⟩ := h
    -- the unlinking assignment is `elem.next = newFirstElem.next` in both branches
    have hstep : ∃ h1, setNext l.heap elem nf.next = some h1 ∧
        ∃ hd, load h1 (some 0) = some hd ∧
        ∃ h2, setNext h1 e.next hd.next = some h2 ∧
        ∃ h3, setNext h2 (some 0) e.next = some h3 ∧
        l'.heap = h3 ∧ l'.header = some 0 ∧ l'.firstElem = l.firstElem := by
      by_cases hc : nf.next = none
      · simp only [hc, ↓reduceIte, Option.bind_eq_some, Option.some_bind, hh] at hrest
        obtain ⟨h1, hs1, hd, hlhd, h2, hs2, ofe, hlofe, h3, hs3, nf3, hlnf3, hres⟩ := hrest
        rw [hc]
        have := Option.some.inj hres
        subst this
        exact ⟨h1, hs1, hd, hlhd, h2, hs2, h3, hs3, rfl, rfl, rfl⟩
      · simp only [hc, ↓reduceIte, Option.bind_eq_some, Option.some_bind, hh] at hrest
        obtain ⟨nn, hlnn, h1, hs1, hd, hlhd, h2, hs2, ofe, hlofe, h3, hs3, nf3, hlnf3, hres⟩ :=
          hrest
        have := Option.some.inj hres
        subst this
        exact ⟨h1, hs1, hd, hlhd, h2, hs2, h3, hs3, rfl, rfl, rfl⟩
    obtain ⟨h1, hs1, hd, hlhd, h2, hs2, h3, hs3, hheap, hhdr, hfst⟩ := hstep
    cases elem with
    | none => simp [load] at hle
    | some P =>
      obtain ⟨-, hPn⟩ := nextOf_of_load_some hle
      cases hN : e.next with
      | none =>
        rw [hN] at hlnf
        simp [load] at hlnf
      | some N =>
        rw [hN] at hlnf hs2 hs3 hPn
        obtain ⟨-, hNn⟩ := nextOf_of_load_some hlnf
        have hP0 : P ≠ 0 := by
          intro h0
          apply he
          rw [hf, h0]
        obtain ⟨hlen1, hn1⟩ := nextOf_setNext_some hs1
        obtain ⟨-, hn0⟩ := nextOf_of_load_some hlhd
        obtain ⟨hlen2, hn2⟩ := nextOf_setNext_some hs2
        obtain ⟨hlen3, hn3⟩ := nextOf_setNext_some hs3
        refine ⟨hhdr, hfst.trans hf, ?_, Or.inr ⟨P, N, hP0, hPn, ?_⟩⟩
        · rw [hheap, hlen3, hlen2, hlen1]
        · intro x
          rw [hheap, hn3 x, hn2 x, hn1 x, ← hn0, hn1 0, if_neg (Ne.symm hP0), hNn]
theorem Shape_of_nextOf_eq {h h' : List (Elem V)} (hs : Shape h) (hlen : h'.length = h.length)
    (hn : ∀ x, nextOf h' x = nextOf h x) : Shape h' := by
  constructor
  · rw [hlen]
    exact hs.sentinel
  · intro a b hab
    rw [hn, ] at hab
    rw [hlen]
    exact hs.valid a b hab
  · intro a a' b ha ha'
    rw [hn] at ha ha'
    exact hs.inj a a' b ha ha'

/-- Moving the cell behind `P` to the front keeps the shape of the heap. -/
theorem Shape_rotate {h h' : List (Elem V)} (hs : Shape h) (hlen : h'.length = h.length)
    (P N : Nat) (hP0 : P ≠ 0) (hPN : nextOf h P = some N)
    (hn : ∀ x, nextOf h' x =
      if x = 0 then some N else if x = N then nextOf h 0
      else if x = P then nextOf h N else nextOf h x) : Shape h' := by
  have hN0 : N ≠ 0 := (hs.valid P N hPN).2
  have hσ : ∀ x, nextOf h' x =
      nextOf h (if x = 0 then P else if x = N then 0 else if x = P then N else x) := by
    intro x
    rw [hn x]
    split_ifs <;> simp_all
  constructor
  · rw [hlen]
    exact hs.sentinel
  · intro a b hab
    rw [hσ] at hab
    rw [hlen]
    exact hs.valid _ b hab
  · intro a a' b ha ha'
    rw [hσ] at ha ha'
    have := hs.inj _ _ _ ha ha'
    split_ifs at this <;> omega

/-- Putting a newly allocated cell between the sentinel and the old first cell keeps the
shape of the heap. -/
theorem Shape_push {h h' : List (Elem V)} (hs : Shape h) (hlen : h'.length = h.length + 1)
    (hn : ∀ x, nextOf h' x =
      if x = 0 then some h.length else if x = h.length then nextOf h 0 else nextOf h x) :
    Shape h' := by
  have h0 := hs.sentinel
  have hσ : ∀ x, x ≠ 0 → nextOf h' x = nextOf h (if x = h.length then 0 else x) := by
    intro x hx
    rw [hn x, if_neg hx]
    split_ifs <;> rfl
  constructor
  · omega
  · intro a b hab
    by_cases ha : a = 0
    · rw [hn, if_pos ha] at hab
      obtain rfl := Option.some.inj hab
      omega
    · rw [hσ a ha] at hab
      have := hs.valid _ b hab
      omega
  · intro a a' b ha ha'
    by_cases h1 : a = 0 <;> by_cases h2 : a' = 0
    · omega
    · rw [hn, if_pos h1] at ha
      rw [hσ a' h2] at ha'
      obtain rfl := Option.some.inj ha
      have := (hs.valid _ _ ha').1
      omega
    · rw [hn, if_pos h2] at ha'
      rw [hσ a h1] at ha
      obtain rfl := Option.some.inj ha'
      have := (hs.valid _ _ ha).1
      omega
    · rw [hσ a h1] at ha
      rw [hσ a' h2] at ha'
      have := hs.inj _ _ _ ha ha'
      have hge : nextOf h h.length = none := nextOf_ge (Nat.le_refl _)
      split_ifs at this with c1 c2 c2
      · omega
      · subst c1
        -- `a' ≠ h.length` has the successor of the sentinel: then `a'` is the sentinel
        omega
      · subst c2
        omega
      · exact this

/-- Putting a newly allocated cell with no successor behind the sentinel keeps the shape of
the heap. -/
theorem Shape_push_nil {h h' : List (Elem V)} (hs : Shape h) (hlen : h'.length = h.length + 1)
    (hn : ∀ x, nextOf h' x =
      if x = 0 then some h.length else if x = h.length then none else nextOf h x) :
    Shape h' := by
  have h0 := hs.sentinel
  constructor
  · omega
  · intro a b hab
    rw [hn] at hab
    split_ifs at hab
    · obtain rfl := Option.some.inj hab
      omega
    · have := hs.valid _ b hab
      omega
  · intro a a' b ha ha'
    rw [hn] at ha ha'
    split_ifs at ha ha' with c1 c2 c3 c4
    · omega
    · obtain rfl := Option.some.inj ha
      have := (hs.valid _ _ ha').1
      omega
    · obtain rfl := Option.some.inj ha'
      have := (hs.valid _ _ ha).1
      omega
    · exact hs.inj _ _ _ ha ha'

/-- Cutting a `next` pointer keeps the shape of the heap. -/
theorem Shape_cut {h h' : List (Elem V)} (hs : Shape h) (hlen : h'.length = h.length)
    (a0 : Nat) (hn : ∀ x, nextOf h' x = if x = a0 then none else nextOf h x) : Shape h' := by
  constructor
  · rw [hlen]
    exact hs.sentinel
  · intro a b hab
    rw [hn] at hab
    split_ifs at hab
    rw [hlen]
    exact hs.valid a b hab
  · intro a a' b ha ha'
    rw [hn] at ha ha'
    split_ifs at ha ha'
    exact hs.inj a a' b ha ha'

theorem WF_NewLru (n : Int) : WF (NewLru n : lruCache V) := by
  refine ⟨rfl, rfl, ?_⟩
  constructor
  · simp [NewLru, alloc]
  · intro a b hab
    cases a with
    | zero => simp [NewLru, alloc, nextOf] at hab
    | succ a => simp [NewLru, alloc, nextOf] at hab
  · intro a a' b ha
    cases a with
    | zero => simp [NewLru, alloc, nextOf] at ha
    | succ a => simp [NewLru, alloc, nextOf] at ha

theorem WF_move {l l' : lruCache V} {elem : Ptr} (hw : WF l)
    (h : l.moveElem2Header elem = some l') : WF l' := by
  obtain ⟨h1, h2, hlen, hcases⟩ := move_nextOf hw.header hw.first h
  refine ⟨h1, h2, ?_⟩
  rcases hcases with hsame | ⟨P, N, hP0, hPN, hn⟩
  · exact Shape_of_nextOf_eq hw.shape hlen hsame
  · exact Shape_rotate hw.shape hlen P N hP0 hPN hn

/-- A `Get` returns the cache it was given or the result of `moveElem2Header`. -/
theorem Get_cases {l l' : lruCache V} {k : String} {r : Option V × Option Err}
    (h : l.Get k = some (r, l')) : l' = l ∨ ∃ elem, l.moveElem2Header elem = some l' := by
  unfold lruCache.Get at h
  simp only [Option.bind_eq_bind, Option.bind_eq_some, Option.pure_def] at h
  obtain ⟨b, -, hb⟩ := h
  cases b with
  | true =>
    simp only [↓reduceIte, Option.some.injEq, Prod.mk.injEq] at hb
    exact Or.inl hb.2.symm
  | false =>
    simp only [Bool.false_eq_true, ↓reduceIte] at hb
    cases hm : mapGet l.keyMap k with
    | none =>
      simp only [hm, Option.some.injEq, Prod.mk.injEq] at hb
      exact Or.inl hb.2.symm
    | some elem =>
      simp only [hm, Option.bind_eq_some, Option.some.injEq, Prod.mk.injEq] at hb
      obtain ⟨e, -, n, -, l1, hmove, -, rfl⟩ := hb
      exact Or.inr ⟨elem, hmove⟩

theorem WF_Get {l l' : lruCache V} {k : String} {r : Option V × Option Err} (hw : WF l)
    (h : l.Get k = some (r, l')) : WF l' := by
  rcases Get_cases h with rfl | ⟨elem, hmove⟩
  · exact hw
  · exact WF_move hw hmove

theorem WF_insertFirstElem {l l' : lruCache V} {k : String} {v : Option V} (hw : WF l)
    (h : l.insertFirstElem k v = some l') : WF l' := by
  unfold lruCache.insertFirstElem at h
  simp only [alloc, Option.bind_eq_bind, Option.bind_eq_some, Option.pure_def, hw.header,
    Option.some.injEq] at h
  obtain ⟨h2, hs2, rfl⟩ := h
  obtain ⟨hlen, hn⟩ := nextOf_setNext_some hs2
  refine ⟨rfl, hw.first, ?_⟩
  apply Shape_push_nil hw.shape
  · show h2.length = _
    rw [hlen]
    simp
  · intro x
    show nextOf h2 x = _
    rw [hn x, nextOf_alloc]

theorem WF_insertFront {l l' : lruCache V} {k : String} {v : Option V} (hw : WF l)
    (h : insertFront l k v = some l') : WF l' := by
  unfold insertFront at h
  simp only [alloc, Option.bind_eq_bind, Option.bind_eq_some, Option.pure_def, hw.header,
    Option.some.injEq] at h
  obtain ⟨hd, hlhd, h2, hs2, h3, hs3, ofe, -, rfl⟩ := h
  obtain ⟨-, hn0⟩ := nextOf_of_load_some hlhd
  obtain ⟨hlen2, hn2⟩ := nextOf_setNext_some hs2
  obtain ⟨hlen3, hn3⟩ := nextOf_setNext_some hs3
  have h0 := hw.shape.sentinel
  have h0ne : (0 : Nat) ≠ l.heap.length := by omega
  refine ⟨rfl, hw.first, ?_⟩
  apply Shape_push hw.shape
  · show h3.length = _
    rw [hlen3, hlen2]
    simp
  · intro x
    show nextOf h3 x = _
    rw [hn3 x, hn2 x, ← hn0, nextOf_alloc, nextOf_alloc, if_neg h0ne]
    split_ifs <;> rfl

theorem WF_deleteTail {l l' : lruCache V} (hw : WF l) (h : l.deleteTail = some l') :
    WF l' := by
  unfold lruCache.deleteTail at h
  simp only [Option.bind_eq_bind, Option.bind_eq_some, Option.pure_def, Option.some.injEq] at h
  obtain ⟨t, -, h1, hs1, rfl⟩ := h
  obtain ⟨a, -, -, hlen, hn⟩ := nextOf_setNext hs1
  exact ⟨hw.header, hw.first, Shape_cut hw.shape hlen a hn⟩

theorem WF_insertElem {l l' : lruCache V} {k : String} {v : Option V} (hw : WF l)
    (h : l.insertElem k v = some l') : WF l' := by
  by_cases hc : l.maxCount = l.currentCount
  · cases hd : l.deleteTail with
    | none =>
      simp [lruCache.insertElem, hc, hd] at h
    | some l1 =>
      rw [insertElem_of_eq l l1 k v hc hd] at h
      have hw1 := WF_deleteTail hw hd
      have hw2 : WF { l1 with currentCount := l1.currentCount - 1 } :=
        ⟨hw1.header, hw1.first, hw1.shape⟩
      exact WF_insertFront hw2 h
  · rw [insertElem_of_ne l k v hc] at h
    exact WF_insertFront hw h

theorem WF_Set {l l' : lruCache V} {k : String} {v : Option V} {e : Option Err}
    (hw : WF l) (h : l.Set ne k v = some (e, l')) : WF l' := by
  unfold lruCache.Set at h
  simp only [Option.bind_eq_bind, Option.bind_eq_some, Option.pure_def] at h
  obtain ⟨⟨⟨v0, err⟩, l1⟩, hget, hrest⟩ := h
  have hw1 := WF_Get hw hget
  cases err with
  | none =>
    simp only [Option.bind_eq_some] at hrest
    obtain ⟨b, -, hb⟩ := hrest
    cases b with
    | false =>
      simp only [Bool.false_eq_true, ↓reduceIte, Option.some.injEq, Prod.mk.injEq] at hb
      rw [← hb.2]
      exact hw1
    | true =>
      simp only [↓reduceIte, Option.bind_eq_some, Option.some.injEq, Prod.mk.injEq] at hb
      obtain ⟨hd, -, h2, hs2, -, rfl⟩ := hb
      obtain ⟨hlen, hn⟩ := nextOf_setVal hs2
      exact ⟨hw1.header, hw1.first, Shape_of_nextOf_eq hw1.shape hlen hn⟩
  | some er =>
    cases er with
    | EmptyErr =>
      simp only [Option.bind_eq_some, Option.some.injEq, Prod.mk.injEq] at hrest
      obtain ⟨l2, hins, -, rfl⟩ := hrest
      exact WF_insertFirstElem hw1 hins
    | NotFoundErr =>
      simp only [Option.bind_eq_some, Option.some.injEq, Prod.mk.injEq] at hrest
      obtain ⟨l2, hins, -, rfl⟩ := hrest
      exact WF_insertElem hw1 hins
    | UnknowErr =>
      simp only [Option.some.injEq, Prod.mk.injEq] at hrest
      rw [← hrest.2]
      exact hw1

theorem WF_Clear {l : lruCache V} (hw : WF l) : WF l.Clear :=
  ⟨hw.first, hw.first, hw.shape⟩

theorem WF_run {l s : lruCache V} (hw : WF l) (ops : List (Op V))
    (h : run ne l ops = some s) : WF s := by
  induction ops generalizing l with
  | nil =>
    obtain rfl := Option.some.inj h
    exact hw
  | cons o ops ih =>
    simp only [run, Option.bind_eq_some] at h
    obtain ⟨l1, hstep, hrun⟩ := h
    apply ih _ hrun
    cases o with
    | Get k =>
      simp only [step, Option.map_eq_some'] at hstep
      obtain ⟨⟨r, l2⟩, hg, rfl⟩ := hstep
      exact WF_Get hw hg
    | Set k v =>
      simp only [step, Option.map_eq_some'] at hstep
      obtain ⟨⟨e, l2⟩, hs, rfl⟩ := hstep
      exact WF_Set ne hw hs
    | Clear =>
      simp only [step, Option.some.injEq] at hstep
      rw [← hstep]
      exact WF_Clear hw
    | GetAllValue =>
      simp only [step, Option.map_eq_some'] at hstep
      obtain ⟨vals, -, rfl⟩ := hstep
      exact hw

theorem nodup_lt_length_le (L : List Nat) (n : Nat) (hnd : L.Nodup) (hlt : ∀ x ∈ L, x < n) :
    L.length ≤ n := by
  have hsub : L ⊆ List.range n := fun x hx => List.mem_range.mpr (hlt x hx)
  have := (List.subperm_of_subset hnd hsub).length_le
  simpa using this

/-- On a path walked from the sentinel, the successor of the cell reached last is a cell not
yet visited. -/
theorem next_not_visited {h : List (Elem V)} (hs : Shape h) (a : Nat) (L : List Nat)
    (hch : List.Chain' (fun y x => nextOf h x = some y) (a :: L))
    (hnd : (a :: L).Nodup) (hlast : (a :: L).getLast (List.cons_ne_nil _ _) = 0)
    (b : Nat) (hab : nextOf h a = some b) : b ∉ a :: L := by
  intro hmem
  have hb0 : b ≠ 0 := (hs.valid a b hab).2
  obtain ⟨l1, l2, hsplit⟩ := List.append_of_mem hmem
  cases l2 with
  | nil =>
    have hl : (a :: L).getLast (List.cons_ne_nil _ _) = b := by
      simp only [hsplit]
      simp
    rw [hlast] at hl
    exact hb0 hl.symm
  | cons y l3 =>
    have hyb : nextOf h y = some b := by
      rw [hsplit] at hch
      exact (List.chain'_cons.mp (List.chain'_split.mp hch).2).1
    have hya : a = y := hs.inj a y b hab hyb
    subst hya
    cases l1 with
    | nil =>
      simp only [List.nil_append, List.cons.injEq] at hsplit
      obtain ⟨-, hL⟩ := hsplit
      rw [hL] at hnd
      simp at hnd
    | cons a' l1' =>
      simp only [List.cons_append, List.cons.injEq] at hsplit
      obtain ⟨-, hL⟩ := hsplit
      rw [hL] at hnd
      simp at hnd

/-- The walk from the successor of the cell reached last ends, when the fuel covers the cells
not yet visited. -/
theorem walkPtrs_returns {h : List (Elem V)} (hs : Shape h) (fuel : Nat) (a : Nat)
    (L : List Nat)
    (hch : List.Chain' (fun y x => nextOf h x = some y) (a :: L))
    (hnd : (a :: L).Nodup) (hlast : (a :: L).getLast (List.cons_ne_nil _ _) = 0)
    (hlt : ∀ x ∈ a :: L, x < h.length)
    (hfuel : h.length ≤ fuel + (a :: L).length) :
    ∃ r, walkPtrs h fuel (nextOf h a) = some r := by
  induction fuel generalizing a L with
  | zero =>
    cases hp : nextOf h a with
    | none => exact ⟨[], by simp [walkPtrs]⟩
    | some b =>
      exfalso
      have hnot := next_not_visited hs a L hch hnd hlast b hp
      have hb := (hs.valid a b hp).1
      have hle := nodup_lt_length_le (b :: a :: L) h.length (List.nodup_cons.mpr ⟨hnot, hnd⟩)
        (by
          intro x hx
          rcases List.mem_cons.mp hx with rfl | hx
          · exact hb
          · exact hlt x hx)
      simp only [List.length_cons] at hle hfuel
      omega
  | succ fuel ih =>
    cases hp : nextOf h a with
    | none => exact ⟨[], by simp [walkPtrs]⟩
    | some b =>
      have hnot := next_not_visited hs a L hch hnd hlast b hp
      have hb := (hs.valid a b hp).1
      obtain ⟨e, he⟩ : ∃ e, h[b]? = some e := by
        cases hx : h[b]? with
        | none =>
          have := List.getElem?_eq_none_iff.mp hx
          omega
        | some e => exact ⟨e, rfl⟩
      have hnb : nextOf h b = e.next := by simp [nextOf, he]
      obtain ⟨r, hr⟩ := ih b (a :: L)
        (List.chain'_cons.mpr ⟨hp, hch⟩)
        (List.nodup_cons.mpr ⟨hnot, hnd⟩)
        (by
          rw [List.getLast_cons (List.cons_ne_nil _ _)]
          exact hlast)
        (by
          intro x hx
          rcases List.mem_cons.mp hx with rfl | hx
          · exact hb
          · exact hlt x hx)
        (by
          simp only [List.length_cons] at hfuel ⊢
          omega)
      rw [hnb] at hr
      exact ⟨b :: r, by simp [walkPtrs, he, hr]⟩

theorem walkVals_of_walkPtrs (h : List (Elem V)) (fuel : Nat) (p : Ptr) (r : List Nat)
    (acc : List (Option V)) (hr : walkPtrs h fuel p = some r) :
    ∃ vals, walkVals h fuel p acc = some vals := by
  induction fuel generalizing p r acc with
  | zero =>
    cases p with
    | none => exact ⟨acc, by simp [walkVals]⟩
    | some a => simp [walkPtrs] at hr
  | succ fuel ih =>
    cases p with
    | none => exact ⟨acc, by simp [walkVals]⟩
    | some a =>
      cases he : h[a]? with
      | none => simp [walkPtrs, he] at hr
      | some e =>
        simp only [walkPtrs, he, Option.map_eq_some'] at hr
        obtain ⟨r', hr', -⟩ := hr
        obtain ⟨vals, hv⟩ := ih e.next r' (acc ++ [e.val]) hr'
        exact ⟨vals, by simp [walkVals, he, hv]⟩

/-- `GetAllValue` returns in every well-formed cache. -/
theorem WF.GetAllValue_returns {l : lruCache V} (hw : WF l) :
    ∃ vals, l.GetAllValue = some vals := by
  have h0 := hw.shape.sentinel
  obtain ⟨hd, hhd⟩ : ∃ hd, l.heap[0]? = some hd := by
    cases hx : l.heap[0]? with
    | none =>
      have := List.getElem?_eq_none_iff.mp hx
      omega
    | some e => exact ⟨e, rfl⟩
  have hn0 : nextOf l.heap 0 = hd.next := by simp [nextOf, hhd]
  obtain ⟨r, hr⟩ := walkPtrs_returns hw.shape l.heap.length 0 []
    (List.chain'_singleton _) (List.nodup_singleton _) rfl
    (by
      intro x hx
      rw [List.mem_singleton.mp hx]
      exact h0)
    (by simp)
  rw [hn0] at hr
  obtain ⟨vals, hv⟩ := walkVals_of_walkPtrs l.heap l.heap.length hd.next r [] hr
  exact ⟨vals, by simp [lruCache.GetAllValue, hw.header, load, hhd, hv]⟩

/-- `GetAllValue` returns in every state reached from a new cache by public calls. -/
theorem reachable_GetAllValue_returns (n : Int) (ops : List (Op V)) (s : lruCache V)
    (hrun : run ne (NewLru n) ops = some s) : ∃ vals, s.GetAllValue = some vals :=
  (WF_run ne (WF_NewLru n) ops hrun).GetAllValue_returns

/-! ### What holds as long as `Clear` is not called -/

/-- On a freshly constructed cache every `Get` returns `EmptyErr` and changes nothing, and
`GetAllValue` returns the empty sequence. -/
theorem fresh_cache_reads_empty (n : Int) (k : String) :
    (NewLru n : lruCache V).Get k = some ((none, some Err.EmptyErr), NewLru n) ∧
    (NewLru n : lruCache V).GetAllValue = some [] :=
  ⟨Get_empty (Inv_NewLru n) k, (Inv_NewLru n).GetAllValue_eq⟩

/-- In every state reached by public calls other than `Clear`, `Set k v` returns nil and a
following `Get k` returns `v` with no error, if comparing a payload with `v` never panics
and finds only `v` itself equal to `v`. -/
theorem roundtrip_without_Clear (n : Int) (ops : List (Op V)) (s : lruCache V)
    (k : String) (v : Option V)
    (hops : ∀ o ∈ ops, o.isClear = false) (hrun : run ne (NewLru n) ops = some s)
    (hv : ∀ a, ne a v ≠ none) (hid : ∀ a, ne a v = some false → a = v) :
    ∃ s1, s.Set ne k v = some (none, s1) ∧ s1.Get k = some ((v, none), s1) := by
  obtain ⟨cs, hinv, -⟩ := reach_inv_noClear ne hops hrun
  obtain ⟨s1, a, x, rest, hset, hinv1, -, hx⟩ := Set_total ne hinv k v hv
  have hxv : x = v := by
    rcases hx with hx | hx
    · exact hx
    · exact hid x hx
  subst hxv
  exact ⟨s1, hset, Get_front hinv1⟩

/-- Every sequence of public calls other than `Clear` on a new cache runs to completion, if
the payload comparison never panics. -/
theorem run_without_Clear_returns (htot : ∀ a b, ne a b ≠ none) (n : Int) (ops : List (Op V))
    (hops : ∀ o ∈ ops, o.isClear = false) :
    ∃ s, run ne (NewLru n) ops = some s := by
  obtain ⟨s, cs, hrun, -, -⟩ := run_total_noClear ne htot (Inv_NewLru n) ops hops
  exact ⟨s, hrun⟩

/-! ### The comparison of plain values -/

theorem valNe_ne_none {W : Type} [DecidableEq W] (a b : Option W) : valNe a b ≠ none := by
  simp [valNe]

/-- Comparing any `Payload` with an int does not panic. -/
theorem ifaceNe_int_ne_none (a : Option Payload) (n : Int) :
    ifaceNe a (some (Payload.int n)) ≠ none := by
  cases a with
  | none => simp [ifaceNe]
  | some p => cases p <;> simp [ifaceNe, payloadNe]


/-! ## The claims -/

/-- C1 (Round-trip), failing input: on `NewLru 10`, after `Set("a", 1)`, `Clear()` and
`Set("a", 2)` (which returns nil), `Get("a")` returns the value 1 stored before the
`Clear`, with no error, instead of 2. -/
theorem C1_roundtrip_fails_after_Clear :
    (run valNe (NewLru 10 : lruCache Nat) [Op.Set "a" (some 1), Op.Clear]).bind
        (fun s => (s.Set valNe "a" (some 2)).map Prod.fst) = some none ∧
    (run valNe (NewLru 10 : lruCache Nat) [Op.Set "a" (some 1), Op.Clear, Op.Set "a" (some 2)]).bind
        (fun s => (s.Get "a").map Prod.fst) = some (some 1, none) := by
  decide

/-- C2 (Eviction order): whatever the payload comparison `ne` of `Set` does, in every state `s`
reached from `NewLru n` by `Get` and `Set` calls that holds `maxCount` entries (stored pairs
`init ++ [(ke, we)]`, so `(ke, we)` is the least recently used one, whose value is last in
`GetAllValue`), `Set k v` for a key `k` that is not stored returns nil and evicts exactly that
entry: afterwards `Get ke` returns `NotFoundErr`, `GetAllValue` is `v` followed by the previous
sequence without its last element, and every other previously stored key is still found with its
value.  Instance: with capacity 10, `Set` of eleven distinct keys in order makes `Get` of the
first one return `NotFoundErr`. -/
theorem C2_eviction_order (ne : Option V → Option V → Option Bool) :
    (∀ (n : Int) (ops : List (Op V)) (s : lruCache V) (init : List (String × Option V))
        (ke : String) (we : Option V) (k : String) (v : Option V),
      (∀ o ∈ ops, o.isGetSet = true) → run ne (NewLru n) ops = some s →
      s.entries = some (init ++ [(ke, we)]) →
      ((init ++ [(ke, we)]).length : Int) = s.maxCount →
      k ∉ (init ++ [(ke, we)]).map Prod.fst →
      ∃ s', s.Set ne k v = some (none, s') ∧
        s.GetAllValue = some (init.map Prod.snd ++ [we]) ∧
        s'.Get ke = some ((none, some Err.NotFoundErr), s') ∧
        s'.GetAllValue = some (v :: init.map Prod.snd) ∧
        s'.entries = some ((k, v) :: init) ∧
        ∀ k' w', (k', w') ∈ init → ∃ t, s'.Get k' = some ((w', none), t)) ∧
    (∀ (k0 : String) (v0 : Option V) (mid : List (String × Option V)) (k10 : String)
        (v10 : Option V),
      mid.length = 9 → (k0 :: (mid.map Prod.fst ++ [k10])).Nodup →
      ∃ s, run ne (NewLru 10) (setOps ((k0, v0) :: mid) ++ [Op.Set k10 v10]) = some s ∧
        s.Get k0 = some ((none, some Err.NotFoundErr), s)) := by
  have key : ∀ (s : lruCache V) (cs : List (Cell V)) (init : List (String × Option V))
      (ke : String) (we : Option V) (k : String) (v : Option V),
      Inv s cs → cs.map Cell.kv = init ++ [(ke, we)] →
      ((init ++ [(ke, we)]).length : Int) = s.maxCount →
      k ∉ (init ++ [(ke, we)]).map Prod.fst →
      ∃ s', s.Set ne k v = some (none, s') ∧
        s.GetAllValue = some (init.map Prod.snd ++ [we]) ∧
        s'.Get ke = some ((none, some Err.NotFoundErr), s') ∧
        s'.GetAllValue = some (v :: init.map Prod.snd) ∧
        s'.entries = some ((k, v) :: init) ∧
        ∀ k' w', (k', w') ∈ init → ∃ t, s'.Get k' = some ((w', none), t) := by
    intro s cs init ke we k v hinv hL hfull hk
    obtain ⟨s', cs', hset, hinv', hkv, -⟩ := Set_evict ne hinv hL k v hk hfull
    have hkeys := hinv.keys
    rw [map_key_eq, hL, List.map_append, List.map_cons, List.map_nil] at hkeys
    have hke_init : ke ∉ init.map Prod.fst := by
      intro h
      exact (List.nodup_append.mp hkeys).2.2 h (List.mem_singleton_self _)
    have hke_k : ke ≠ k := by
      intro h
      apply hk
      rw [← h]
      simp
    refine ⟨s', hset, ?_, ?_, ?_, ?_, ?_⟩
    · rw [hinv.GetAllValue_eq, map_val_eq, hL]
      simp
    · apply Get_miss hinv' ke
      · intro h
        rw [h] at hkv
        simp at hkv
      · rw [map_key_eq, hkv, List.map_cons, List.mem_cons, not_or]
        exact ⟨hke_k, hke_init⟩
    · rw [hinv'.GetAllValue_eq, map_val_eq, hkv]
      rfl
    · rw [hinv'.entries_eq, hkv]
    · intro k' w' hmem
      apply Get_of_mem hinv'
      rw [hkv]
      exact List.mem_cons_of_mem _ hmem
  constructor
  · intro n ops s init ke we k v hops hrun hent hfull hk
    obtain ⟨cs, hinv, -⟩ := reach_inv ne hops hrun
    exact key s cs init ke we k v hinv (hinv.entries_inj hent) hfull hk
  · intro k0 v0 mid k10 v10 hlen hnd
    have hm : (NewLru 10 : lruCache V).maxCount = 10 := rfl
    have hnd0 : (k0 :: mid.map Prod.fst).Nodup := by
      have : (k0 :: (mid.map Prod.fst ++ [k10])) = (k0 :: mid.map Prod.fst) ++ [k10] := rfl
      rw [this] at hnd
      exact (List.nodup_append.mp hnd).1
    have hnd' : (((k0, v0) :: mid).map Prod.fst ++ ([] : List (Cell V)).map Cell.key).Nodup := by
      simpa using hnd0
    have hroom : (((([] : List (Cell V)).length + ((k0, v0) :: mid).length : Nat)) : Int) ≤
        (NewLru 10 : lruCache V).maxCount := by
      rw [hm]
      simp only [List.length_nil, List.length_cons, hlen]
      norm_num
    obtain ⟨s, cs, hrun, hinv, hkv, hmax⟩ := run_fill ne (Inv_NewLru 10) _ hnd' hroom
    have hkv' : cs.map Cell.kv = mid.reverse ++ [(k0, v0)] := by
      rw [hkv]
      simp
    have hfull : ((mid.reverse ++ [(k0, v0)]).length : Int) = s.maxCount := by
      rw [hmax, hm]
      simp only [List.length_append, List.length_reverse, List.length_cons, List.length_nil, hlen]
      norm_num
    have hk : k10 ∉ (mid.reverse ++ [(k0, v0)]).map Prod.fst := by
      rw [List.nodup_cons] at hnd
      have h1 : k10 ≠ k0 := by
        intro h
        apply hnd.1
        rw [h]
        simp
      have h2 : k10 ∉ mid.map Prod.fst := by
        intro h
        exact (List.nodup_append.mp hnd.2).2.2 h (List.mem_singleton_self _)
      simp only [List.map_append, List.map_reverse, List.map_cons, List.map_nil, List.mem_append,
        List.mem_reverse, List.mem_singleton, not_or]
      exact ⟨h2, h1⟩
    obtain ⟨s', hset, -, hget, -, -, -⟩ := key s cs _ k0 v0 k10 v10 hinv hkv' hfull hk
    refine ⟨s', ?_, hget⟩
    rw [run_append, hrun]
    simp only [Option.some_bind, run, step, hset, Option.map_some']

/-- Witness of C2: the cache filled with "k0" … "k9" evicts "k0" on `Set "k10"`; and the
instance at these eleven keys. -/
theorem C2_eviction_order_witness :
    ((∀ o ∈ setOps fillK, o.isGetSet = true) ∧
      run valNe (NewLru 10) (setOps fillK) = some fullCache ∧
      fullCache.entries = some
        ([("k9", some 9), ("k8", some 8), ("k7", some 7), ("k6", some 6), ("k5", some 5),
          ("k4", some 4), ("k3", some 3), ("k2", some 2), ("k1", some 1)] ++ [("k0", some 0)]) ∧
      (10 : Int) = fullCache.maxCount ∧
      ∃ s', fullCache.Set valNe "k10" (some 10) = some (none, s') ∧
        s'.Get "k0" = some ((none, some Err.NotFoundErr), s') ∧
        s'.GetAllValue = some [some 10, some 9, some 8, some 7, some 6, some 5, some 4, some 3,
          some 2, some 1]) ∧
    (∃ s, run valNe (NewLru 10) (setOps fillK ++ [Op.Set "k10" (some 10)]) = some s ∧
      s.Get "k0" = some ((none, some Err.NotFoundErr), s)) := by
  have hops : ∀ o ∈ setOps fillK, o.isGetSet = true := by decide
  have hrun : run valNe (NewLru 10) (setOps fillK) = some fullCache := by rfl
  have hent : fullCache.entries = some
      ([("k9", some 9), ("k8", some 8), ("k7", some 7), ("k6", some 6), ("k5", some 5),
        ("k4", some 4), ("k3", some 3), ("k2", some 2), ("k1", some 1)] ++ [("k0", some 0)]) := by
    rfl
  have hfull : (10 : Int) = fullCache.maxCount := by rfl
  refine ⟨⟨hops, hrun, hent, hfull, ?_⟩, ?_⟩
  · obtain ⟨s', h1, -, h3, h4, -, -⟩ :=
      (C2_eviction_order valNe).1 10 (setOps fillK) fullCache _ "k0" (some 0) "k10" (some 10)
        hops hrun hent hfull (by decide)
    exact ⟨s', h1, h3, h4⟩
  · exact (C2_eviction_order valNe).2 "k0" (some 0)
      [("k1", some 1), ("k2", some 2), ("k3", some 3), ("k4", some 4), ("k5", some 5),
        ("k6", some 6), ("k7", some 7), ("k8", some 8), ("k9", some 9)] "k10" (some 10)
      rfl (by decide)

/-- C3 (Recency promotion): whatever the payload comparison `ne` of `Set` does, in every state
`s` reached from `NewLru n` by `Get` and `Set` calls, if `k` is stored with value `w` (the
stored pairs are `pre ++ (k, w) :: post`, most recent first), then `Get k` returns `w` with no
error, and afterwards `GetAllValue` is `w` followed by the previous sequence with `k`'s entry
removed; the stored pairs are the same ones with `(k, w)` moved to the front, so keys, values
and the relative order of the other entries are unchanged.  Instance: with capacity 10 and ten
distinct keys `Set` in order, `Get` of the fourth key makes `GetAllValue` return the values of
keys 3, 9, 8, 7, 6, 5, 4, 2, 1, 0 in that order. -/
theorem C3_recency_promotion (ne : Option V → Option V → Option Bool) :
    (∀ (n : Int) (ops : List (Op V)) (s : lruCache V) (pre post : List (String × Option V))
        (k : String) (w : Option V),
      (∀ o ∈ ops, o.isGetSet = true) → run ne (NewLru n) ops = some s →
      s.entries = some (pre ++ (k, w) :: post) →
      ∃ s', s.Get k = some ((w, none), s') ∧
        s.GetAllValue = some (pre.map Prod.snd ++ w :: post.map Prod.snd) ∧
        s'.GetAllValue = some (w :: (pre.map Prod.snd ++ post.map Prod.snd)) ∧
        s'.entries = some ((k, w) :: (pre ++ post)) ∧
        k ∉ (pre ++ post).map Prod.fst) ∧
    (∀ (a b : List (String × Option V)) (k3 : String) (v3 : Option V),
      a.length = 3 → b.length = 6 → ((a ++ (k3, v3) :: b).map Prod.fst).Nodup →
      ∃ s, run ne (NewLru 10) (setOps (a ++ (k3, v3) :: b) ++ [Op.Get k3]) = some s ∧
        s.GetAllValue = some (v3 :: (b.reverse.map Prod.snd ++ a.reverse.map Prod.snd))) := by
  constructor
  · intro n ops s pre post k w hops hrun hent
    obtain ⟨cs, hinv, -⟩ := reach_inv ne hops hrun
    have hL := hinv.entries_inj hent
    obtain ⟨s', cs', hget, hinv', hkv, -⟩ := Get_stored hinv hL
    refine ⟨s', hget, ?_, ?_, ?_, ?_⟩
    · rw [hinv.GetAllValue_eq, map_val_eq, hL]
      simp
    · rw [hinv'.GetAllValue_eq, map_val_eq, hkv]
      simp
    · rw [hinv'.entries_eq, hkv]
    · have hk := hinv'.keys
      rw [map_key_eq, hkv, List.map_cons, List.nodup_cons] at hk
      exact hk.1
  · intro a b k3 v3 ha hb hnd
    have hnd' : ((a ++ (k3, v3) :: b).map Prod.fst ++ ([] : List (Cell V)).map Cell.key).Nodup := by
      simpa using hnd
    have hroom : (((([] : List (Cell V)).length + (a ++ (k3, v3) :: b).length : Nat)) : Int) ≤
        (NewLru 10 : lruCache V).maxCount := by
      have hm : (NewLru 10 : lruCache V).maxCount = 10 := rfl
      rw [hm]
      simp only [List.length_nil, List.length_append, List.length_cons, ha, hb]
      norm_num
    obtain ⟨s, cs, hrun, hinv, hkv, -⟩ := run_fill ne (Inv_NewLru 10) _ hnd' hroom
    have hkv' : cs.map Cell.kv = b.reverse ++ (k3, v3) :: a.reverse := by
      rw [hkv]
      simp
    obtain ⟨s', cs', hget, hinv', hkv2, -⟩ := Get_stored hinv hkv'
    refine ⟨s', ?_, ?_⟩
    · rw [run_append, hrun]
      simp only [Option.some_bind, run, step, hget, Option.map_some']
    · rw [hinv'.GetAllValue_eq, map_val_eq, hkv2]
      simp

/-- Witness of C3: on the cache filled with "k0" … "k9", `Get "k3"` returns 3 and moves
that entry to the front; and the instance at these ten keys. -/
theorem C3_recency_promotion_witness :
    ((∀ o ∈ setOps fillK, o.isGetSet = true) ∧
      run valNe (NewLru 10) (setOps fillK) = some fullCache ∧
      fullCache.entries = some
        ([("k9", some 9), ("k8", some 8), ("k7", some 7), ("k6", some 6), ("k5", some 5),
          ("k4", some 4)] ++ ("k3", some 3) :: [("k2", some 2), ("k1", some 1), ("k0", some 0)]) ∧
      ∃ s', fullCache.Get "k3" = some ((some 3, none), s') ∧
        s'.GetAllValue = some [some 3, some 9, some 8, some 7, some 6, some 5, some 4, some 2,
          some 1, some 0]) ∧
    (∃ s, run valNe (NewLru 10) (setOps fillK ++ [Op.Get "k3"]) = some s ∧
      s.GetAllValue = some [some 3, some 9, some 8, some 7, some 6, some 5, some 4, some 2,
        some 1, some 0]) := by
  have hops : ∀ o ∈ setOps fillK, o.isGetSet = true := by decide
  have hrun : run valNe (NewLru 10) (setOps fillK) = some fullCache := by rfl
  have hent : fullCache.entries = some
      ([("k9", some 9), ("k8", some 8), ("k7", some 7), ("k6", some 6), ("k5", some 5),
        ("k4", some 4)] ++ ("k3", some 3) :: [("k2", some 2), ("k1", some 1), ("k0", some 0)]) := by
    rfl
  refine ⟨⟨hops, hrun, hent, ?_⟩, ?_⟩
  · obtain ⟨s', h1, -, h3, -, -⟩ :=
      (C3_recency_promotion valNe).1 10 (setOps fillK) fullCache _ _ "k3" (some 3) hops hrun hent
    exact ⟨s', h1, h3⟩
  · exact (C3_recency_promotion valNe).2 [("k0", some 0), ("k1", some 1), ("k2", some 2)]
      [("k4", some 4), ("k5", some 5), ("k6", some 6), ("k7", some 7), ("k8", some 8),
        ("k9", some 9)] "k3" (some 3) rfl rfl (by decide)

/-- C4 (Capacity bound): for every integer `n` and every sequence of `Set` calls applied to
`NewLru n`, whatever the payload comparison `ne` of `Set` does, the cache that the calls
leave holds at most `min (max n 10) 1000` entries: that bounds the length of `GetAllValue`
and the `currentCount` field, which agree; and when the comparison never panics (as for
ints or strings) the calls all return.  (Every prefix of a sequence of `Set` calls is such a
sequence, so the bound holds after each call.) -/
theorem C4_capacity_bound (ne : Option V → Option V → Option Bool) (n : Int)
    (kvs : List (String × Option V)) :
    (∀ s, run ne (NewLru n) (setOps kvs) = some s →
      ∃ vals, s.GetAllValue = some vals ∧
        (vals.length : Int) ≤ min (max n 10) 1000 ∧
        s.currentCount = (vals.length : Int) ∧
        s.currentCount ≤ min (max n 10) 1000) ∧
    ((∀ a b, ne a b ≠ none) →
      ∃ s vals, run ne (NewLru n) (setOps kvs) = some s ∧ s.GetAllValue = some vals ∧
        (vals.length : Int) ≤ min (max n 10) 1000 ∧
        s.currentCount = (vals.length : Int) ∧
        s.currentCount ≤ min (max n 10) 1000) := by
  have hops : ∀ o ∈ setOps kvs, o.isGetSet = true := by
    intro o ho
    obtain ⟨kv, -, rfl⟩ := List.mem_map.mp ho
    rfl
  have key : ∀ s, run ne (NewLru n) (setOps kvs) = some s →
      ∃ vals, s.GetAllValue = some vals ∧
        (vals.length : Int) ≤ min (max n 10) 1000 ∧
        s.currentCount = (vals.length : Int) ∧
        s.currentCount ≤ min (max n 10) 1000 := by
    intro s hrun
    obtain ⟨cs, hinv, hmax⟩ := reach_inv ne hops hrun
    have hcap := hinv.cap
    rw [hmax, clamp_eq] at hcap
    refine ⟨cs.map Cell.val, hinv.GetAllValue_eq, ?_, ?_, ?_⟩
    · rw [List.length_map]
      exact hcap
    · rw [List.length_map]
      exact hinv.count
    · rw [hinv.count]
      exact hcap
  refine ⟨key, ?_⟩
  intro htot
  obtain ⟨s, hrun⟩ := run_without_Clear_returns ne htot n (setOps kvs)
    (fun o ho => isClear_of_isGetSet (hops o ho))
  obtain ⟨vals, h⟩ := key s hrun
  exact ⟨s, vals, hrun, h⟩

/-- Witness of C4: twenty `Set` calls with int payloads on `NewLru 3`, whose capacity is 10. -/
theorem C4_capacity_bound_witness :
    (∀ a b : Option Nat, valNe a b ≠ none) ∧
    ∃ s vals, run valNe (NewLru 3) (setOps (fillK ++ fillB)) = some s ∧
      s.GetAllValue = some vals ∧
      (vals.length : Int) ≤ min (max 3 10) 1000 ∧
      s.currentCount = (vals.length : Int) ∧
      s.currentCount ≤ min (max 3 10) 1000 :=
  ⟨valNe_ne_none, (C4_capacity_bound valNe 3 (fillK ++ fillB)).2 valNe_ne_none⟩

/-- C5 (Update of an existing key), counterexample: on `NewLru 10` after
`Set("a", []int{1})`, the key "a" is stored, and `Set("a", []int{2})` does not store the new
value: the comparison of the two slices panics and the call does not return. -/
theorem C5_update_existing_key_counterexample :
    (run ifaceNe (NewLru 10) [Op.Set "a" (some (Payload.ints [1]))]).bind
        (fun s => s.entries) = some [("a", some (Payload.ints [1]))] ∧
    (run ifaceNe (NewLru 10) [Op.Set "a" (some (Payload.ints [1]))]).bind
        (fun s => s.Set ifaceNe "a" (some (Payload.ints [2]))) = none ∧
    run ifaceNe (NewLru 10)
        [Op.Set "a" (some (Payload.ints [1])), Op.Set "a" (some (Payload.ints [2]))] = none := by
  decide

/-- C5 (Update of an existing key), amended: in every state `s` reached from `NewLru n` by
`Get` and `Set` calls, for a key `k` that is stored with value `w` (stored pairs
`pre ++ (k, w) :: post`) and a value `v` such that the comparison `w != v` does not panic
but returns `b`, `Set k v` returns nil, keeps the number of entries (`currentCount`) and the
set of indexed keys, and moves `k`'s entry to the front; the entry then holds `v` if the
comparison said unequal, and keeps `w` if it said equal: the stored pairs become that pair
followed by `pre ++ post`, `GetAllValue` becomes that value followed by the previous
sequence with `k`'s old value removed from its place, and every other stored key is found
with the same value as before. -/
theorem C5_update_existing_key_amended (ne : Option V → Option V → Option Bool) (n : Int)
    (ops : List (Op V)) (s : lruCache V)
    (pre post : List (String × Option V)) (k : String) (w v : Option V) (b : Bool)
    (hops : ∀ o ∈ ops, o.isGetSet = true) (hrun : run ne (NewLru n) ops = some s)
    (hent : s.entries = some (pre ++ (k, w) :: post)) (hb : ne w v = some b) :
    ∃ s', s.Set ne k v = some (none, s') ∧
      s'.entries = some ((k, if b then v else w) :: (pre ++ post)) ∧
      s.GetAllValue = some (pre.map Prod.snd ++ w :: post.map Prod.snd) ∧
      s'.GetAllValue =
        some ((if b then v else w) :: (pre.map Prod.snd ++ post.map Prod.snd)) ∧
      s'.currentCount = s.currentCount ∧
      (∀ k', mapGet s'.keyMap k' = none ↔ mapGet s.keyMap k' = none) ∧
      (∀ k' w', (k', w') ∈ pre ++ post →
        k' ≠ k ∧ (∃ t, s.Get k' = some ((w', none), t)) ∧
          ∃ t, s'.Get k' = some ((w', none), t)) := by
  obtain ⟨cs, hinv, -⟩ := reach_inv ne hops hrun
  have hL := hinv.entries_inj hent
  obtain ⟨s', cs', hset, hinv', hkv, -⟩ := Set_stored ne hinv hL v b hb
  have hlen : cs'.length = cs.length := by
    have h1 := congrArg List.length hkv
    have h2 := congrArg List.length hL
    simp only [List.length_map, List.length_cons, List.length_append] at h1 h2
    omega
  have hkeys := hinv'.keys
  rw [map_key_eq, hkv, List.map_cons, List.nodup_cons] at hkeys
  refine ⟨s', hset, ?_, ?_, ?_, ?_, ?_, ?_⟩
  · rw [hinv'.entries_eq, hkv]
  · rw [hinv.GetAllValue_eq, map_val_eq, hL]
    simp
  · rw [hinv'.GetAllValue_eq, map_val_eq, hkv]
    simp
  · rw [hinv'.count, hinv.count, hlen]
  · intro k'
    rw [hinv'.index_none_iff, hinv.index_none_iff, hkv, hL]
    simp only [List.map_cons, List.map_append, List.mem_cons, List.mem_append]
    tauto
  · intro k' w' hmem
    refine ⟨?_, ?_, ?_⟩
    · intro h
      apply hkeys.1
      rw [← h]
      exact List.mem_map.mpr ⟨(k', w'), hmem, rfl⟩
    · apply Get_of_mem hinv
      rw [hL]
      simp only [List.mem_append, List.mem_cons] at hmem ⊢
      tauto
    · apply Get_of_mem hinv'
      rw [hkv]
      exact List.mem_cons_of_mem _ hmem

/-- Witness of the amended C5: in the cache holding "b" ↦ 2 and "a" ↦ 1, the ints 1 and 7
compare unequal, and `Set "a" 7` moves "a" to the front with value 7 and leaves "b" ↦ 2; in
the cache holding "z" ↦ `+0.0`, the zeros `+0.0` and `-0.0` compare equal, and
`Set("z", -0.0)` leaves `+0.0` stored. -/
theorem C5_update_existing_key_amended_witness :
    ((∀ o ∈ [Op.Set "a" (some 1), Op.Set "b" (some 2)], Op.isGetSet o = true) ∧
      run valNe (NewLru 10) [Op.Set "a" (some 1), Op.Set "b" (some 2)] = some cacheAB ∧
      cacheAB.entries = some ([("b", some 2)] ++ ("a", some 1) :: []) ∧
      valNe (some 1) (some 7) = some true ∧
      ∃ s', cacheAB.Set valNe "a" (some 7) = some (none, s') ∧
        s'.entries = some [("a", some 7), ("b", some 2)] ∧
        s'.GetAllValue = some [some 7, some 2] ∧
        s'.currentCount = cacheAB.currentCount) ∧
    ((∀ o ∈ [Op.Set "z" (some (Payload.zero false))], Op.isGetSet o = true) ∧
      run ifaceNe (NewLru 10) [Op.Set "z" (some (Payload.zero false))] = some cacheZero ∧
      cacheZero.entries = some ([] ++ ("z", some (Payload.zero false)) :: []) ∧
      ifaceNe (some (Payload.zero false)) (some (Payload.zero true)) = some false ∧
      ∃ s', cacheZero.Set ifaceNe "z" (some (Payload.zero true)) = some (none, s') ∧
        s'.entries = some [("z", some (Payload.zero false))] ∧
        s'.GetAllValue = some [some (Payload.zero false)] ∧
        s'.currentCount = cacheZero.currentCount) := by
  have hops : ∀ o ∈ [Op.Set "a" (some 1), Op.Set "b" (some 2)], Op.isGetSet o = true := by
    decide
  have hrun : run valNe (NewLru 10) [Op.Set "a" (some 1), Op.Set "b" (some 2)] =
      some cacheAB := by
    rfl
  have hent : cacheAB.entries = some ([("b", some 2)] ++ ("a", some 1) :: []) := by rfl
  have hb : valNe (some 1) (some 7) = some true := by rfl
  have hopsZ : ∀ o ∈ [Op.Set "z" (some (Payload.zero false))], Op.isGetSet o = true := by
    decide
  have hrunZ : run ifaceNe (NewLru 10) [Op.Set "z" (some (Payload.zero false))] =
      some cacheZero := by
    rfl
  have hentZ : cacheZero.entries = some ([] ++ ("z", some (Payload.zero false)) :: []) := by
    rfl
  have hbZ : ifaceNe (some (Payload.zero false)) (some (Payload.zero true)) = some false := by
    rfl
  refine ⟨⟨hops, hrun, hent, hb, ?_⟩, hopsZ, hrunZ, hentZ, hbZ, ?_⟩
  · obtain ⟨s', h1, h2, -, h4, h5, -, -⟩ :=
      C5_update_existing_key_amended valNe 10 _ cacheAB [("b", some 2)] [] "a" (some 1)
        (some 7) true hops hrun hent hb
    exact ⟨s', h1, h2, h4, h5⟩
  · obtain ⟨s', h1, h2, -, h4, h5, -, -⟩ :=
      C5_update_existing_key_amended ifaceNe 10 _ cacheZero [] [] "z"
        (some (Payload.zero false)) (some (Payload.zero true)) false hopsZ hrunZ hentZ hbZ
    exact ⟨s', h1, h2, h4, h5⟩

/-- C6 (Empty-state), failing input: on `NewLru 10`, after `Set("a", 1)` and `Clear()`,
the sentinel still has a successor (`Empty` is false), `Get` returns `NotFoundErr` instead
of `EmptyErr`, and `GetAllValue` still returns the value 1. -/
theorem C6_Clear_keeps_chain :
    (run valNe (NewLru 10 : lruCache Nat) [Op.Set "a" (some 1), Op.Clear]).bind
        (fun s => s.Empty) = some false ∧
    (run valNe (NewLru 10 : lruCache Nat) [Op.Set "a" (some 1), Op.Clear]).bind
        (fun s => (s.Get "a").map Prod.fst) = some (none, some Err.NotFoundErr) ∧
    (run valNe (NewLru 10 : lruCache Nat) [Op.Set "a" (some 1), Op.Clear]).bind
        (fun s => (s.Get "b").map Prod.fst) = some (none, some Err.NotFoundErr) ∧
    (run valNe (NewLru 10 : lruCache Nat) [Op.Set "a" (some 1), Op.Clear]).bind
        (fun s => s.GetAllValue) = some [some 1] := by
  decide

/-- C7 (Set never fails), failing input: on `NewLru 10`, after `Set("a", 1)`, `Clear()` and
`Set` of the ten keys "b0" … "b9" (all of which return), `currentCount` equals `maxCount`
while `tail` is still the sentinel, whose key "" is not in the index; `Set("b10", 0)` then
calls `deleteTail`, which dereferences the nil predecessor: the call does not return. -/
theorem C7_Set_fails_after_Clear :
    (run valNe (NewLru 10 : lruCache Nat)
        ([Op.Set "a" (some 1), Op.Clear] ++ setOps fillB)).isSome = true ∧
    (run valNe (NewLru 10 : lruCache Nat) ([Op.Set "a" (some 1), Op.Clear] ++ setOps fillB)).bind
        (fun s => some (s.currentCount, s.maxCount, s.tail, s.header, mapGetD s.keyMap "")) =
      some (10, 10, some 0, some 0, none) ∧
    (run valNe (NewLru 10 : lruCache Nat) ([Op.Set "a" (some 1), Op.Clear] ++ setOps fillB)).bind
        (fun s => s.deleteTail) = none ∧
    (run valNe (NewLru 10 : lruCache Nat) ([Op.Set "a" (some 1), Op.Clear] ++ setOps fillB)).bind
        (fun s => s.Set valNe "b10" (some 0)) = none := by
  decide

/-- C8 (Clear resets capacity enforcement), failing input: on `NewLru 10`, after `Set` of
"k0" … "k9" (values 0 … 9), `Clear()` and `Set` of the ten distinct keys "k5", "k9", "k8",
"k7", "k6", "x1", …, "x5" (all of which return), `Get("k5")` returns the value 5 stored
before the `Clear` instead of the value 105 it was `Set` to in the batch, and `GetAllValue`
returns sixteen values. -/
theorem C8_batch_after_Clear_reads_stale_value :
    (run valNe (NewLru 10 : lruCache Nat)
        (setOps fillK ++ [Op.Clear] ++ setOps batchAfterClear)).bind
        (fun s => (s.Get "k5").map Prod.fst) = some (some 5, none) ∧
    (run valNe (NewLru 10 : lruCache Nat)
        (setOps fillK ++ [Op.Clear] ++ setOps batchAfterClear)).bind
        (fun s => s.GetAllValue) =
      some [some 205, some 204, some 203, some 202, some 201, some 106, some 107, some 108,
        some 109, some 105, some 5, some 4, some 3, some 2, some 1, some 0] := by
  decide

/-- C9 (Idempotent update), counterexample: on `NewLru 10`, `Set("a", []int{1})` returns,
and the same call directly after it does not: it compares the stored slice with the new
one, which panics. -/
theorem C9_idempotent_update_counterexample :
    (run ifaceNe (NewLru 10) [Op.Set "a" (some (Payload.ints [1]))]).bind
        (fun s => s.GetAllValue) = some [some (Payload.ints [1])] ∧
    ifaceNe (some (Payload.ints [1])) (some (Payload.ints [1])) = none ∧
    (run ifaceNe (NewLru 10) [Op.Set "a" (some (Payload.ints [1]))]).bind
        (fun s => s.Set ifaceNe "a" (some (Payload.ints [1]))) = none := by
  decide

/-- C9 (Idempotent update), amended: in every state `s` reached from `NewLru n` by `Get` and
`Set` calls, for every key `k` and every value `v` such that comparing a payload with `v`
never panics, `Set k v` returns nil, and a second `Set k v` directly after it returns nil and
leaves the cache as it is: `GetAllValue` returns the same sequence (so the same length)
after the second call as after the first, and `Get k` afterwards returns with no error the
stored value `x`, which is `v`, or the value that `k` held before the first call if the
comparison found that one equal to `v`. -/
theorem C9_idempotent_update_amended (ne : Option V → Option V → Option Bool) (n : Int)
    (ops : List (Op V)) (s : lruCache V) (k : String) (v : Option V)
    (hops : ∀ o ∈ ops, o.isGetSet = true) (hrun : run ne (NewLru n) ops = some s)
    (hv : ∀ a, ne a v ≠ none) :
    ∃ s1 s2 vals x, s.Set ne k v = some (none, s1) ∧ s1.Set ne k v = some (none, s2) ∧
      s1.GetAllValue = some vals ∧ s2.GetAllValue = some vals ∧ s2 = s1 ∧
      (∃ t, s2.Get k = some ((x, none), t)) ∧ (x = v ∨ ne x v = some false) := by
  obtain ⟨cs, hinv, -⟩ := reach_inv ne hops hrun
  obtain ⟨s1, a, x, rest, hset, hinv1, -, hx⟩ := Set_total ne hinv k v hv
  have hsame := Set_front_same ne hinv1 v hx (hv v)
  have hget := Get_front hinv1
  exact ⟨s1, s1, _, x, hset, hsame, hinv1.GetAllValue_eq, hinv1.GetAllValue_eq, rfl,
    ⟨s1, hget⟩, hx⟩

/-- Witness of the amended C9: `Set "c" 3` twice on the cache holding "b" and "a" (no
comparison with the int 3 panics); and `Set("b", 6)` twice on the cache holding the slice
`[]int{1}` under "a" and the int 5 under "b" (no comparison with the int 6 panics, whatever
else the cache holds). -/
theorem C9_idempotent_update_amended_witness :
    ((∀ o ∈ [Op.Set "a" (some 1), Op.Set "b" (some 2)], Op.isGetSet o = true) ∧
      run valNe (NewLru 10) [Op.Set "a" (some 1), Op.Set "b" (some 2)] = some cacheAB ∧
      (∀ a : Option Nat, valNe a (some 3) ≠ none) ∧
      ∃ s1 s2 vals x, cacheAB.Set valNe "c" (some 3) = some (none, s1) ∧
        s1.Set valNe "c" (some 3) = some (none, s2) ∧
        s1.GetAllValue = some vals ∧ s2.GetAllValue = some vals ∧ s2 = s1 ∧
        (∃ t, s2.Get "c" = some ((x, none), t)) ∧
        (x = some 3 ∨ valNe x (some 3) = some false)) ∧
    ((∀ o ∈ [Op.Set "b" (some (Payload.int 5)), Op.Set "a" (some (Payload.ints [1]))],
        Op.isGetSet o = true) ∧
      run ifaceNe (NewLru 10)
          [Op.Set "b" (some (Payload.int 5)), Op.Set "a" (some (Payload.ints [1]))] =
        some cacheSlice ∧
      (∀ a : Option Payload, ifaceNe a (some (Payload.int 6)) ≠ none) ∧
      ∃ s1 s2 vals x, cacheSlice.Set ifaceNe "b" (some (Payload.int 6)) = some (none, s1) ∧
        s1.Set ifaceNe "b" (some (Payload.int 6)) = some (none, s2) ∧
        s1.GetAllValue = some vals ∧ s2.GetAllValue = some vals ∧ s2 = s1 ∧
        (∃ t, s2.Get "b" = some ((x, none), t)) ∧
        (x = some (Payload.int 6) ∨ ifaceNe x (some (Payload.int 6)) = some false)) := by
  have hops : ∀ o ∈ [Op.Set "a" (some 1), Op.Set "b" (some 2)], Op.isGetSet o = true := by
    decide
  have hrun : run valNe (NewLru 10) [Op.Set "a" (some 1), Op.Set "b" (some 2)] =
      some cacheAB := by
    rfl
  have hv : ∀ a : Option Nat, valNe a (some 3) ≠ none := fun a => valNe_ne_none a (some 3)
  have hopsS : ∀ o ∈ [Op.Set "b" (some (Payload.int 5)), Op.Set "a" (some (Payload.ints [1]))],
      Op.isGetSet o = true := by decide
  have hrunS : run ifaceNe (NewLru 10)
      [Op.Set "b" (some (Payload.int 5)), Op.Set "a" (some (Payload.ints [1]))] =
        some cacheSlice := by rfl
  have hvS : ∀ a : Option Payload, ifaceNe a (some (Payload.int 6)) ≠ none :=
    fun a => ifaceNe_int_ne_none a 6
  exact ⟨⟨hops, hrun, hv,
      C9_idempotent_update_amended valNe 10 _ cacheAB "c" (some 3) hops hrun hv⟩,
    hopsS, hrunS, hvS,
    C9_idempotent_update_amended ifaceNe 10 _ cacheSlice "b" (some (Payload.int 6)) hopsS hrunS
      hvS⟩

/-- C10 (Clamp): for every integer `n`, `NewLru n` has `maxCount` 10 if `n < 10`, 1000 if
`n > 1000` and `n` otherwise (so 3 gives 10, 5000 gives 1000 and 50 gives 50),
`NewDefaultLru` is `NewLru 100` and has capacity 100, and the constructed cache, from
`NewLru n` as from `NewDefaultLru`, is empty: it consists of the sentinel cell alone,
`currentCount` is 0, the index is empty, header and tail are both the sentinel, and the
sentinel has no successor (so `Empty` holds, every `Get` returns `EmptyErr` and
`GetAllValue` is the empty sequence). -/
theorem C10_clamp (V : Type) (n : Int) :
    ((NewLru n : lruCache V).maxCount = if n < 10 then 10 else if n > 1000 then 1000 else n) ∧
    (NewLru 3 : lruCache V).maxCount = 10 ∧
    (NewLru 5000 : lruCache V).maxCount = 1000 ∧
    (NewLru 50 : lruCache V).maxCount = 50 ∧
    (NewDefaultLru : lruCache V).maxCount = 100 ∧
    (NewLru n : lruCache V).currentCount = 0 ∧
    (NewLru n : lruCache V).keyMap = [] ∧
    (NewLru n : lruCache V).header = (NewLru n : lruCache V).firstElem ∧
    (NewLru n : lruCache V).tail = (NewLru n : lruCache V).firstElem ∧
    load (NewLru n : lruCache V).heap (NewLru n : lruCache V).header =
      some { key := "", val := none, next := none } ∧
    (NewLru n : lruCache V).Empty = some true ∧
    (NewLru n : lruCache V).GetAllValue = some [] ∧
    (NewLru n : lruCache V) =
      { heap := [{ key := "", val := none, next := none }]
        firstElem := some 0
        maxCount := if n < 10 then 10 else if n > 1000 then 1000 else n
        currentCount := 0
        keyMap := []
        header := some 0
        tail := some 0 } ∧
    (∀ k, (NewLru n : lruCache V).Get k = some ((none, some Err.EmptyErr), NewLru n)) ∧
    (NewDefaultLru : lruCache V) = NewLru 100 ∧
    (NewDefaultLru : lruCache V) =
      { heap := [{ key := "", val := none, next := none }]
        firstElem := some 0
        maxCount := 100
        currentCount := 0
        keyMap := []
        header := some 0
        tail := some 0 } ∧
    (NewDefaultLru : lruCache V).currentCount = 0 ∧
    (NewDefaultLru : lruCache V).keyMap = [] ∧
    (NewDefaultLru : lruCache V).header = (NewDefaultLru : lruCache V).firstElem ∧
    (NewDefaultLru : lruCache V).tail = (NewDefaultLru : lruCache V).firstElem ∧
    load (NewDefaultLru : lruCache V).heap (NewDefaultLru : lruCache V).header =
      some { key := "", val := none, next := none } ∧
    (NewDefaultLru : lruCache V).Empty = some true ∧
    (NewDefaultLru : lruCache V).GetAllValue = some [] ∧
    (∀ k, (NewDefaultLru : lruCache V).Get k =
      some ((none, some Err.EmptyErr), NewDefaultLru)) := by
  refine ⟨rfl, rfl, rfl, rfl, rfl, rfl, rfl, rfl, rfl, rfl, rfl, rfl, rfl, ?_, rfl, rfl, rfl,
    rfl, rfl, rfl, rfl, rfl, rfl, ?_⟩
  · intro k
    exact Get_empty (Inv_NewLru n) k
  · intro k
    exact Get_empty (Inv_NewLru 100) k

/-- C11 (Count invariant), failing input: on `NewLru 10`, after `Set("a", 1)` and `Clear()`,
`currentCount` is 0 and the index has no key, but one entry (the cell at address 1, holding
"a" ↦ 1) is still reachable by following `next` from `header.next`. -/
theorem C11_count_invariant_fails_after_Clear :
    (run valNe (NewLru 10 : lruCache Nat) [Op.Set "a" (some 1), Op.Clear]).bind
        (fun s => some (s.currentCount, s.indexCount)) = some (0, 0) ∧
    (run valNe (NewLru 10 : lruCache Nat) [Op.Set "a" (some 1), Op.Clear]).bind
        (fun s => s.chain) = some [1] ∧
    (run valNe (NewLru 10 : lruCache Nat) [Op.Set "a" (some 1), Op.Clear]).bind
        (fun s => s.entries) = some [("a", some 1)] := by
  decide

/-- C12 (Predecessor-index invariant): whatever the payload comparison `ne` of `Set` does, in
every state reached from `NewLru n` by `Get` and `Set` calls, the keys of the entries on the
chain from `header.next` are pairwise distinct (each chain cell holds the stored pair at its
position), the index has exactly one entry for each of those keys and no others, and for every
indexed key `k` with index value `p`, `p` is the header sentinel or an entry on the chain, and
`p.next` is the chain entry whose key is `k`. -/
theorem C12_predecessor_index (ne : Option V → Option V → Option Bool) (n : Int)
    (ops : List (Op V)) (s : lruCache V)
    (hops : ∀ o ∈ ops, o.isGetSet = true) (hrun : run ne (NewLru n) ops = some s) :
    ∃ addrs L, s.chain = some addrs ∧ s.entries = some L ∧ addrs.length = L.length ∧
      (∀ a kv, (a, kv) ∈ addrs.zip L →
        ∃ e, load s.heap (some a) = some e ∧ e.key = kv.1 ∧ e.val = kv.2) ∧
      (L.map Prod.fst).Nodup ∧
      (s.keyMap.map Prod.fst).Nodup ∧
      (∀ k, k ∈ s.keyMap.map Prod.fst ↔ k ∈ L.map Prod.fst) ∧
      s.indexCount = L.length ∧
      ∀ k p, mapGet s.keyMap k = some p →
        (p = s.header ∨ ∃ a ∈ addrs, p = some a) ∧
        ∃ e a' nx, load s.heap p = some e ∧ e.next = some a' ∧ a' ∈ addrs ∧
          load s.heap (some a') = some nx ∧ nx.key = k := by
  obtain ⟨cs, hinv, -⟩ := reach_inv ne hops hrun
  refine ⟨cs.map Cell.addr, cs.map Cell.kv, hinv.chain_eq, hinv.entries_eq, by simp, ?_, ?_,
    hinv.indexKeys, ?_, ?_, ?_⟩
  · intro a kv hmem
    rw [List.zip_map, List.mem_map] at hmem
    obtain ⟨⟨c, c'⟩, hcc, heq⟩ := hmem
    have hc : c ∈ cs ∧ c = c' := by
      rw [List.zip_eq_zipWith] at hcc
      have hz : ∀ (xs : List (Cell V)) (x y : Cell V),
          (x, y) ∈ List.zipWith Prod.mk xs xs → x ∈ xs ∧ x = y := by
        intro xs
        induction xs with
        | nil => simp
        | cons d xs ih =>
          intro x y hxy
          simp only [List.zipWith_cons_cons, List.mem_cons, Prod.mk.injEq] at hxy
          rcases hxy with ⟨rfl, rfl⟩ | hxy
          · exact ⟨List.mem_cons_self _ _, rfl⟩
          · exact ⟨List.mem_cons_of_mem _ (ih x y hxy).1, (ih x y hxy).2⟩
      exact hz cs c c' hcc
    obtain ⟨hc1, rfl⟩ := hc
    simp only [Prod.map_apply, Prod.mk.injEq] at heq
    obtain ⟨rfl, rfl⟩ := heq
    obtain ⟨nx, hnx⟩ := Seg_mem _ _ _ hinv.seg c hc1
    exact ⟨_, hnx, rfl, rfl⟩
  · rw [← map_key_eq]
    exact hinv.keys
  · intro k
    rw [← map_key_eq]
    exact hinv.index_mem_iff k
  · rw [List.length_map]
    exact hinv.index_length
  · intro k p hp
    rw [hinv.index k] at hp
    obtain ⟨a, ep, c, hpa, hmem, hha, hnext, hc, hkey⟩ :=
      predOf_sound s.heap cs none 0 _ k p hinv.sentinel rfl hinv.seg hp
    subst hpa
    obtain ⟨nx, hnx⟩ := Seg_mem _ _ _ hinv.seg c hc
    refine ⟨?_, ep, c.addr, _, hha, hnext, List.mem_map.mpr ⟨c, hc, rfl⟩, hnx, hkey⟩
    rcases hmem with rfl | hmem
    · exact Or.inl hinv.header.symm
    · exact Or.inr ⟨a, hmem, rfl⟩

/-- Witness of C12: the cache holding "b" and "a". -/
theorem C12_predecessor_index_witness :
    (∀ o ∈ [Op.Set "a" (some 1), Op.Set "b" (some 2)], Op.isGetSet o = true) ∧
    run valNe (NewLru 10) [Op.Set "a" (some 1), Op.Set "b" (some 2)] = some cacheAB ∧
    ∃ addrs L, cacheAB.chain = some addrs ∧ cacheAB.entries = some L ∧
      (L.map Prod.fst).Nodup ∧ (cacheAB.keyMap.map Prod.fst).Nodup ∧
      (∀ k, k ∈ cacheAB.keyMap.map Prod.fst ↔ k ∈ L.map Prod.fst) ∧
      cacheAB.indexCount = L.length ∧
      ∀ k p, mapGet cacheAB.keyMap k = some p →
        (p = cacheAB.header ∨ ∃ a ∈ addrs, p = some a) ∧
        ∃ e a' nx, load cacheAB.heap p = some e ∧ e.next = some a' ∧ a' ∈ addrs ∧
          load cacheAB.heap (some a') = some nx ∧ nx.key = k := by
  have hops : ∀ o ∈ [Op.Set "a" (some 1), Op.Set "b" (some 2)], Op.isGetSet o = true := by
    decide
  have hrun : run valNe (NewLru 10) [Op.Set "a" (some 1), Op.Set "b" (some 2)] = some cacheAB := by
    rfl
  obtain ⟨addrs, L, h1, h2, -, -, h5, h6, h7, h8, h9⟩ :=
    C12_predecessor_index valNe 10 _ cacheAB hops hrun
  exact ⟨hops, hrun, addrs, L, h1, h2, h5, h6, h7, h8, h9⟩

/-- C13 (Tail invariant): whatever the payload comparison `ne` of `Set` does, in every state
reached from `NewLru n` by `Get` and `Set` calls the walk from `header.next` ends and visits
pairwise distinct cells, none of them the sentinel, and `currentCount` is their number; if there
is no entry then `header.next` is nil and `tail` is the header sentinel; otherwise `tail` is the
last cell of the chain and its `next` is nil. -/
theorem C13_tail_invariant (ne : Option V → Option V → Option Bool) (n : Int)
    (ops : List (Op V)) (s : lruCache V)
    (hops : ∀ o ∈ ops, o.isGetSet = true) (hrun : run ne (NewLru n) ops = some s) :
    ∃ addrs, s.chain = some addrs ∧ addrs.Nodup ∧ (∀ a ∈ addrs, some a ≠ s.header) ∧
      s.currentCount = (addrs.length : Int) ∧
      (addrs = [] →
        (∃ hd, load s.heap s.header = some hd ∧ hd.next = none) ∧ s.tail = s.header) ∧
      (∀ hne : addrs ≠ [],
        s.tail = some (addrs.getLast hne) ∧
          ∃ t, load s.heap s.tail = some t ∧ t.next = none) := by
  obtain ⟨cs, hinv, -⟩ := reach_inv ne hops hrun
  refine ⟨cs.map Cell.addr, hinv.chain_eq, (List.nodup_cons.mp hinv.addrs).2,
    hinv.header_not_mem, ?_, ?_, ?_⟩
  · rw [hinv.count, List.length_map]
  · intro hnil
    have hcs : cs = [] := List.map_eq_nil_iff.mp hnil
    subst hcs
    refine ⟨⟨{ key := "", val := none, next := none }, ?_, rfl⟩, ?_⟩
    · rw [hinv.header]
      exact hinv.sentinel
    · rw [hinv.tail, hinv.header]
      rfl
  · intro hne
    have htail : s.tail = some ((cs.map Cell.addr).getLast hne) := by
      rw [hinv.tail, lastAddr_eq_getLast 0 cs hne]
    refine ⟨htail, ?_⟩
    rcases List.eq_nil_or_concat cs with hcs | ⟨cs', c, hcs⟩
    · subst hcs
      simp at hne
    · rw [List.concat_eq_append] at hcs
      have hseg := hinv.seg
      rw [hcs] at hseg
      refine ⟨{ key := c.key, val := c.val, next := none }, ?_, rfl⟩
      rw [hinv.tail, hcs, lastAddr_concat]
      exact Seg_last _ _ _ _ hseg

/-- Witness of C13: the cache holding "b" and "a". -/
theorem C13_tail_invariant_witness :
    (∀ o ∈ [Op.Set "a" (some 1), Op.Set "b" (some 2)], Op.isGetSet o = true) ∧
    run valNe (NewLru 10) [Op.Set "a" (some 1), Op.Set "b" (some 2)] = some cacheAB ∧
    ∃ addrs, cacheAB.chain = some addrs ∧ addrs.Nodup ∧ (∀ a ∈ addrs, some a ≠ cacheAB.header) ∧
      cacheAB.currentCount = (addrs.length : Int) ∧
      (addrs = [] →
        (∃ hd, load cacheAB.heap cacheAB.header = some hd ∧ hd.next = none) ∧
          cacheAB.tail = cacheAB.header) ∧
      (∀ hne : addrs ≠ [],
        cacheAB.tail = some (addrs.getLast hne) ∧
          ∃ t, load cacheAB.heap cacheAB.tail = some t ∧ t.next = none) := by
  have hops : ∀ o ∈ [Op.Set "a" (some 1), Op.Set "b" (some 2)], Op.isGetSet o = true := by
    decide
  have hrun : run valNe (NewLru 10) [Op.Set "a" (some 1), Op.Set "b" (some 2)] = some cacheAB := by
    rfl
  exact ⟨hops, hrun, C13_tail_invariant valNe 10 _ cacheAB hops hrun⟩

/-- C14 (Snapshot is read-only): whatever the payload comparison `ne` of `Set` does, in every
state `s` reached from `NewLru n` by any public calls, `GetAllValue` returns and leaves the
whole cache as it is (heap, index, tail and `currentCount` included), so a second call directly
after it returns the same sequence, and a `GetAllValue` call put in front of any further calls
`ys` changes neither what these calls return nor the cache they leave; on a freshly constructed
cache it returns the empty sequence. -/
theorem C14_snapshot_read_only (ne : Option V → Option V → Option Bool) (n : Int)
    (xs ys : List (Op V))
    (s : lruCache V) (hrun : run ne (NewLru n) xs = some s) :
    (∃ vals, s.GetAllValue = some vals ∧
      step ne s Op.GetAllValue = some s ∧
      observe ne s [Op.GetAllValue, Op.GetAllValue] = some [Obs.all vals, Obs.all vals] ∧
      observe ne s (Op.GetAllValue :: ys) = (observe ne s ys).map (fun rest => Obs.all vals :: rest)) ∧
    run ne s (Op.GetAllValue :: ys) = run ne s ys ∧
    run ne (NewLru n) (xs ++ Op.GetAllValue :: ys) = run ne (NewLru n) (xs ++ ys) ∧
    (NewLru n : lruCache V).GetAllValue = some [] := by
  obtain ⟨vals, hv⟩ := reachable_GetAllValue_returns ne n xs s hrun
  have hstep : step ne s Op.GetAllValue = some s := by
    simp only [step, hv, Option.map_some']
  have hrun2 : run ne s (Op.GetAllValue :: ys) = run ne s ys := by
    simp only [run, hstep, Option.some_bind]
  refine ⟨⟨vals, hv, hstep, ?_, ?_⟩, hrun2, ?_, (Inv_NewLru n).GetAllValue_eq⟩
  · simp only [observe, hv, Option.map_some']
  · simp only [observe, hv]
  · rw [run_append, run_append, hrun, Option.some_bind, Option.some_bind, hrun2]

/-- Witness of C14: a state reached through a `Clear`, in which `GetAllValue` still returns
the two values stored before the `Clear`. -/
theorem C14_snapshot_read_only_witness :
    run valNe (NewLru 10) [Op.Set "a" (some 1), Op.Set "b" (some 2), Op.Clear, Op.Set "c" (some 3)] =
      some cacheCleared ∧
    cacheCleared.GetAllValue = some [some 3, some 2, some 1] ∧
    (∃ vals, cacheCleared.GetAllValue = some vals ∧
      step valNe cacheCleared Op.GetAllValue = some cacheCleared ∧
      observe valNe cacheCleared [Op.GetAllValue, Op.GetAllValue] =
        some [Obs.all vals, Obs.all vals] ∧
      observe valNe cacheCleared [Op.GetAllValue, Op.Get "c"] =
        (observe valNe cacheCleared [Op.Get "c"]).map (fun rest => Obs.all vals :: rest)) ∧
    run valNe cacheCleared [Op.GetAllValue, Op.Get "c"] = run valNe cacheCleared [Op.Get "c"] := by
  have hrun : run valNe (NewLru 10)
      [Op.Set "a" (some 1), Op.Set "b" (some 2), Op.Clear, Op.Set "c" (some 3)] =
        some cacheCleared := by rfl
  have h := C14_snapshot_read_only valNe 10 _ [Op.Get "c"] cacheCleared hrun
  exact ⟨hrun, by rfl, h.1, h.2.1⟩

/-- C16 (Evict-Tail is safe and exact): whatever the payload comparison `ne` of `Set` does, in
every state `s` reached from `NewLru n` by `Get` and `Set` calls with `currentCount == maxCount`
(the states in which `Set` of an absent key calls `deleteTail`), the chain ends in two cells
`p`, `t` with `tail = t`, the index maps `tail.key` to `p`, which is a chain entry and not the
header sentinel; `deleteTail` returns, makes `p` the new tail with `next` nil, deletes exactly
the key of the old tail from the index, shortens the chain by its last cell and leaves
`header.next` non-nil; and `Set` of any absent key returns nil. -/
theorem C16_evict_tail (ne : Option V → Option V → Option Bool) (n : Int)
    (ops : List (Op V)) (s : lruCache V)
    (hops : ∀ o ∈ ops, o.isGetSet = true) (hrun : run ne (NewLru n) ops = some s)
    (hfull : s.currentCount = s.maxCount) :
    ∃ init p t te s',
      s.chain = some (init ++ [p, t]) ∧
      s.tail = some t ∧ load s.heap s.tail = some te ∧
      mapGet s.keyMap te.key = some (some p) ∧ some p ≠ s.header ∧
      s.deleteTail = some s' ∧
      s'.tail = some p ∧ (∃ pe, load s'.heap s'.tail = some pe ∧ pe.next = none) ∧
      s'.keyMap = mapDelete s.keyMap te.key ∧
      (∀ k, mapGet s'.keyMap k = if k = te.key then none else mapGet s.keyMap k) ∧
      (∃ hd a, load s'.heap s'.header = some hd ∧ hd.next = some a) ∧
      s'.chain = some (init ++ [p]) ∧
      (∀ L, s.entries = some L → s'.entries = some L.dropLast) ∧
      ∀ k v, mapGet s.keyMap k = none → ∃ s2, s.Set ne k v = some (none, s2) := by
  obtain ⟨cs, hinv, -⟩ := reach_inv ne hops hrun
  have hlen : 2 ≤ cs.length := by
    have h1 := hinv.count
    have h2 := hinv.capLo
    omega
  obtain ⟨init, p, t, hcs⟩ : ∃ init p t, cs = init ++ [p, t] := by
    rcases List.eq_nil_or_concat cs with rfl | ⟨cs1, t, rfl⟩
    · simp at hlen
    · rcases List.eq_nil_or_concat cs1 with rfl | ⟨init, p, rfl⟩
      · simp at hlen
      · exact ⟨init, p, t, by simp⟩
  subst hcs
  have heval := deleteTail_eval hinv
  obtain ⟨s', hdel, hinv', -⟩ := deleteTail_spec hinv
  rw [heval] at hdel
  have hs' := (Option.some.inj hdel).symm
  have hkeys := hinv.keys
  rw [List.map_append, List.map_cons, List.map_cons] at hkeys
  obtain ⟨hpt, ⟨-, ht1⟩, -, -⟩ := nodup_split hkeys
  have ht : s.heap[t.addr]? = some { key := t.key, val := t.val, next := none } :=
    ((Seg_append _ init [p, t] none).mp hinv.seg).2.2.1
  have htail : s.tail = some t.addr := by
    rw [hinv.tail, lastAddr_append]
    rfl
  have hm : mapGet s.keyMap t.key = some (some p.addr) := by
    rw [hinv.index t.key, predOf_append_of_not_mem _ _ _ _ ht1]
    simp [predOf, hpt]
  have hp0 : some p.addr ≠ s.header :=
    hinv.header_not_mem p.addr (by simp)
  have hseg' := hinv'.seg
  have hp' : s'.heap[p.addr]? = some { key := p.key, val := p.val, next := none } :=
    Seg_last _ _ _ _ hseg'
  refine ⟨init.map Cell.addr, p.addr, t.addr, { key := t.key, val := t.val, next := none }, s',
    ?_, htail, ?_, hm, hp0, heval.trans (congrArg some hs'.symm), ?_, ?_, ?_, ?_, ?_, ?_, ?_, ?_⟩
  · rw [hinv.chain_eq]
    simp
  · rw [htail]
    exact ht
  · rw [hs']
  · refine ⟨{ key := p.key, val := p.val, next := none }, ?_, rfl⟩
    rw [hs']
    rw [hs'] at hp'
    exact hp'
  · rw [hs']
  · intro k
    rw [hs']
    exact mapGet_mapDelete _ _ _
  · have hsent := hinv'.sentinel
    have hhd := hinv'.header
    have hhd' : s'.header = some 0 := hhd
    obtain ⟨a, ha⟩ : ∃ a, hdOr (init ++ [p]) (none : Ptr) = some a := by
      cases init <;> exact ⟨_, rfl⟩
    refine ⟨{ key := "", val := none, next := hdOr (init ++ [p]) none }, a, ?_, ha⟩
    rw [hhd']
    exact hsent
  · have := hinv'.chain_eq
    simpa using this
  · intro L hL
    have h1 := hinv.entries_inj hL
    have h2 := hinv'.entries_eq
    rw [← h1, ← List.map_dropLast]
    have hd : (init ++ [p, t]).dropLast = init ++ [p] := by
      have : init ++ [p, t] = (init ++ [p]) ++ [t] := by simp
      rw [this, List.dropLast_concat]
    rw [hd]
    exact h2
  · intro k v hk
    have hk' : k ∉ (init ++ [p, t]).map Cell.key := by
      rw [map_key_eq]
      exact (hinv.index_none_iff k).mp hk
    obtain ⟨s2, a, rest, hset, -, -⟩ := Set_absent ne hinv k v hk'
    exact ⟨s2, hset⟩

/-- Witness of C16: the cache filled with "k0" … "k9" is full. -/
theorem C16_evict_tail_witness :
    (∀ o ∈ setOps fillK, o.isGetSet = true) ∧
    run valNe (NewLru 10) (setOps fillK) = some fullCache ∧
    fullCache.currentCount = fullCache.maxCount ∧
    ∃ init p t te s',
      fullCache.chain = some (init ++ [p, t]) ∧
      fullCache.tail = some t ∧ load fullCache.heap fullCache.tail = some te ∧
      mapGet fullCache.keyMap te.key = some (some p) ∧ some p ≠ fullCache.header ∧
      fullCache.deleteTail = some s' ∧
      s'.tail = some p ∧ (∃ pe, load s'.heap s'.tail = some pe ∧ pe.next = none) ∧
      s'.keyMap = mapDelete fullCache.keyMap te.key ∧
      (∃ hd a, load s'.heap s'.header = some hd ∧ hd.next = some a) ∧
      s'.chain = some (init ++ [p]) := by
  have hops : ∀ o ∈ setOps fillK, o.isGetSet = true := by decide
  have hrun : run valNe (NewLru 10) (setOps fillK) = some fullCache := by rfl
  have hfull : fullCache.currentCount = fullCache.maxCount := by rfl
  obtain ⟨init, p, t, te, s', h1, h2, h3, h4, h5, h6, h7, h8, h9, -, h11, h12, -, -⟩ :=
    C16_evict_tail valNe 10 _ fullCache hops hrun hfull
  exact ⟨hops, hrun, hfull, init, p, t, te, s', h1, h2, h3, h4, h5, h6, h7, h8, h9, h11, h12⟩

/-- C17 (Insertion of an absent key below capacity): whatever the payload comparison `ne` of
`Set` does, in every state `s` reached from `NewLru n` by `Get` and `Set` calls with
`currentCount < maxCount` and stored pairs `L`, `Set k v` for a key `k` that is not stored
returns nil, adds exactly one entry at the front and evicts nothing: `currentCount` increases by
1, `GetAllValue` afterwards is `v` followed by the previous sequence, and every previously
stored key is still found with its value; on an empty cache the new entry becomes both
`header.next` and `tail`, and `currentCount` becomes 1. -/
theorem C17_insert_below_capacity (ne : Option V → Option V → Option Bool) (n : Int)
    (ops : List (Op V))
    (s : lruCache V) (L : List (String × Option V)) (k : String) (v : Option V)
    (hops : ∀ o ∈ ops, o.isGetSet = true) (hrun : run ne (NewLru n) ops = some s)
    (hent : s.entries = some L) (hroom : s.currentCount < s.maxCount)
    (hk : k ∉ L.map Prod.fst) :
    ∃ s', s.Set ne k v = some (none, s') ∧
      s'.currentCount = s.currentCount + 1 ∧
      s.GetAllValue = some (L.map Prod.snd) ∧
      s'.GetAllValue = some (v :: L.map Prod.snd) ∧
      s'.entries = some ((k, v) :: L) ∧
      (∀ k' w', (k', w') ∈ L → ∃ t, s'.Get k' = some ((w', none), t)) ∧
      (L = [] → s'.currentCount = 1 ∧
        ∃ a hd, load s'.heap s'.header = some hd ∧ hd.next = some a ∧ s'.tail = some a) := by
  obtain ⟨cs, hinv, -⟩ := reach_inv ne hops hrun
  have hL := hinv.entries_inj hent
  have hk' : k ∉ cs.map Cell.key := by
    rw [map_key_eq, hL]
    exact hk
  have hroom' : (cs.length : Int) < s.maxCount := by
    rw [← hinv.count]
    exact hroom
  obtain ⟨s', hset, hinv'⟩ :
      ∃ s', s.Set ne k v = some (none, s') ∧
        Inv s' ({ addr := s.heap.length, key := k, val := v } :: cs) := by
    by_cases hne : cs = []
    · subst hne
      obtain ⟨s', h1, h2, -⟩ := Set_empty ne hinv k v
      exact ⟨s', h1, h2⟩
    · obtain ⟨s', h1, h2, -⟩ := Set_miss_room ne hinv k v hne hk' hroom'
      exact ⟨s', h1, h2⟩
  have hkv : (({ addr := s.heap.length, key := k, val := v } : Cell V) :: cs).map Cell.kv =
      (k, v) :: L := by
    rw [List.map_cons, hL]
    rfl
  refine ⟨s', hset, ?_, ?_, ?_, ?_, ?_, ?_⟩
  · rw [hinv'.count, hinv.count, List.length_cons]
    push_cast
    ring
  · rw [hinv.GetAllValue_eq, map_val_eq, hL]
  · rw [hinv'.GetAllValue_eq, map_val_eq, hkv]
    rfl
  · rw [hinv'.entries_eq, hkv]
  · intro k' w' hmem
    apply Get_of_mem hinv'
    rw [hkv]
    exact List.mem_cons_of_mem _ hmem
  · intro hnil
    have hcs : cs = [] := by
      rw [hnil] at hL
      exact List.map_eq_nil_iff.mp hL
    subst hcs
    refine ⟨?_, s.heap.length, { key := "", val := none, next := some s.heap.length }, ?_, rfl,
      ?_⟩
    · rw [hinv'.count]
      rfl
    · rw [hinv'.header]
      exact hinv'.sentinel
    · rw [hinv'.tail]
      rfl

/-- Witness of C17: `Set "c" 3` on the cache holding "b" and "a". -/
theorem C17_insert_below_capacity_witness :
    (∀ o ∈ [Op.Set "a" (some 1), Op.Set "b" (some 2)], Op.isGetSet o = true) ∧
    run valNe (NewLru 10) [Op.Set "a" (some 1), Op.Set "b" (some 2)] = some cacheAB ∧
    cacheAB.entries = some [("b", some 2), ("a", some 1)] ∧
    cacheAB.currentCount < cacheAB.maxCount ∧
    ∃ s', cacheAB.Set valNe "c" (some 3) = some (none, s') ∧
      s'.currentCount = cacheAB.currentCount + 1 ∧
      s'.GetAllValue = some [some 3, some 2, some 1] ∧
      s'.entries = some [("c", some 3), ("b", some 2), ("a", some 1)] := by
  have hops : ∀ o ∈ [Op.Set "a" (some 1), Op.Set "b" (some 2)], Op.isGetSet o = true := by
    decide
  have hrun : run valNe (NewLru 10) [Op.Set "a" (some 1), Op.Set "b" (some 2)] = some cacheAB := by
    rfl
  have hent : cacheAB.entries = some [("b", some 2), ("a", some 1)] := by rfl
  have hroom : cacheAB.currentCount < cacheAB.maxCount := by decide
  obtain ⟨s', h1, h2, -, h4, h5, -, -⟩ :=
    C17_insert_below_capacity valNe 10 _ cacheAB _ "c" (some 3) hops hrun hent hroom (by decide)
  exact ⟨hops, hrun, hent, hroom, s', h1, h2, h4, h5⟩

/-- C19 (A failed lookup changes nothing): in every state `l` whatsoever, when `Get k`
returns an error, the error is `EmptyErr` or `NotFoundErr`, the value returned is nil and
the cache afterwards is the cache before, so `GetAllValue`, the chain, the index, the tail
and `currentCount` are the same before and after. -/
theorem C19_failed_lookup_changes_nothing (l l' : lruCache V) (k : String) (v : Option V)
    (e : Err) (h : l.Get k = some ((v, some e), l')) :
    v = none ∧ l' = l ∧ (e = Err.EmptyErr ∨ e = Err.NotFoundErr) ∧
      l'.GetAllValue = l.GetAllValue ∧ l'.chain = l.chain ∧ l'.keyMap = l.keyMap ∧
      l'.tail = l.tail ∧ l'.currentCount = l.currentCount := by
  obtain ⟨h1, h2, h3⟩ := Get_error_unchanged l l' k v e h
  subst h2
  exact ⟨h1, rfl, h3, rfl, rfl, rfl, rfl, rfl⟩

/-- Witness of C19: `Get "z"` on the cache holding "b" and "a" returns `NotFoundErr`. -/
theorem C19_failed_lookup_changes_nothing_witness :
    cacheAB.Get "z" = some ((none, some Err.NotFoundErr), cacheAB) ∧
    (none : Option Nat) = none ∧ cacheAB = cacheAB ∧
    (Err.NotFoundErr = Err.EmptyErr ∨ Err.NotFoundErr = Err.NotFoundErr) ∧
    cacheAB.GetAllValue = cacheAB.GetAllValue ∧ cacheAB.chain = cacheAB.chain ∧
    cacheAB.keyMap = cacheAB.keyMap ∧ cacheAB.tail = cacheAB.tail ∧
    cacheAB.currentCount = cacheAB.currentCount := by
  have h : cacheAB.Get "z" = some ((none, some Err.NotFoundErr), cacheAB) := by rfl
  exact ⟨h, C19_failed_lookup_changes_nothing cacheAB cacheAB "z" none Err.NotFoundErr h⟩

/-- C20 (Cleared entries never resurface), failing input: on `NewLru 10`, after
`Set("a", 1)` and `Clear()`, `GetAllValue` still returns the value 1; after a further
`Set("b", 2)`, `GetAllValue` returns 2 and 1, and `Get("a")` finds the key "a", which has
not been `Set` since the `Clear`, and returns its old value 1 with no error. -/
theorem C20_cleared_entry_resurfaces :
    (run valNe (NewLru 10 : lruCache Nat) [Op.Set "a" (some 1), Op.Clear]).bind
        (fun s => s.GetAllValue) = some [some 1] ∧
    (run valNe (NewLru 10 : lruCache Nat) [Op.Set "a" (some 1), Op.Clear, Op.Set "b" (some 2)]).bind
        (fun s => (s.Get "a").map Prod.fst) = some (some 1, none) ∧
    (run valNe (NewLru 10 : lruCache Nat) [Op.Set "a" (some 1), Op.Clear, Op.Set "b" (some 2)]).bind
        (fun s => s.GetAllValue) = some [some 2, some 1] := by
  decide

end Representation

end fastlru
